import Mathlib

/-!
Verification of the input-matching and action-dispatch core of `tuilib`.

The definitions below are a shallow embedding of the Rust sources:
  * `src/input/binding.rs`   — `KeyBinding`, `KeyModifiers`, `KeyCode`
  * `src/input/sequence.rs`  — `KeySequence`
  * `src/input/action.rs`    — `Action`
  * `src/input/matcher.rs`   — `InputMatcher` and `process`
  * `src/input/bindings.rs`  — `KeyBindings` registry (HashMaps as association lists)
  * `src/input/router.rs`    — `ActionRouter` capture/bubble dispatch
  * `src/input/middleware.rs`— middleware chain
  * `src/input/parser.rs`    — the key-binding string parser

`Instant` and `Duration` are modelled as `Nat` (milliseconds); `Instant::now()`
is an ambient input of `process`, so the embedding passes `now` explicitly.
Rust's `Instant::duration_since` saturates at zero, matching `Nat` subtraction.
-/

namespace Tuilib

/-- `terminput::KeyCode` — the closed set of key codes used by the library
(character, function key, and the named keys the parser can produce). -/
inductive KeyCode where
  | char (c : Char)
  | f (n : Nat)
  | enter
  | esc
  | tab
  | backspace
  | delete
  | insert
  | up
  | down
  | left
  | right
  | home
  | end'
  | pageUp
  | pageDown
  deriving DecidableEq, Repr

/-- `terminput::KeyModifiers` — a bitset of Ctrl/Alt/Shift/Super, modelled as
four booleans. -/
structure KeyModifiers where
  ctrl : Bool
  alt : Bool
  shift : Bool
  sup : Bool
  deriving DecidableEq, Repr

/-- `KeyModifiers::NONE`. -/
def KeyModifiers.NONE : KeyModifiers := ⟨false, false, false, false⟩

/-- Bitset union, the `|=` of the Rust parser loop. -/
def KeyModifiers.union (a b : KeyModifiers) : KeyModifiers :=
  ⟨a.ctrl || b.ctrl, a.alt || b.alt, a.shift || b.shift, a.sup || b.sup⟩

def KeyModifiers.CTRL : KeyModifiers := ⟨true, false, false, false⟩
def KeyModifiers.ALT : KeyModifiers := ⟨false, true, false, false⟩
def KeyModifiers.SHIFT : KeyModifiers := ⟨false, false, true, false⟩
def KeyModifiers.SUPER : KeyModifiers := ⟨false, false, false, true⟩

/-- `KeyBinding` (binding.rs): one key press = key code + modifier set. -/
structure KeyBinding where
  key : KeyCode
  modifiers : KeyModifiers
  deriving DecidableEq, Repr

/-- `KeyBinding::new` — no modifiers. -/
def KeyBinding.new (key : KeyCode) : KeyBinding := ⟨key, KeyModifiers.NONE⟩

/-- `KeyBinding::with_mods`. -/
def KeyBinding.withMods (key : KeyCode) (modifiers : KeyModifiers) : KeyBinding :=
  ⟨key, modifiers⟩

/-- `Action` (action.rs): an immutable named token. -/
structure Action where
  name : String
  deriving DecidableEq, Repr

/-- `KeySequence` (sequence.rs): ordered list of key bindings. The Rust
constructor panics on an empty list; the claims below never depend on that
invariant, so the embedding carries the raw list. -/
structure KeySequence where
  keys : List KeyBinding
  deriving DecidableEq, Repr

/-- `KeySequence::single`. -/
def KeySequence.single (b : KeyBinding) : KeySequence := ⟨[b]⟩

/-- A key-press event (`terminput::KeyEvent`): the matcher only reads
`code` and `modifiers`; `kind`/`state` are filtered by the caller. -/
structure KeyEvent where
  code : KeyCode
  modifiers : KeyModifiers
  deriving DecidableEq, Repr

/-! ## Sequence matcher (matcher.rs) -/

/-- `MatchResult` (matcher.rs). -/
inductive MatchResult where
  | NoMatch
  | Pending
  | Matched (a : Action)
  deriving DecidableEq, Repr

/-- `RegisteredBinding` (matcher.rs). -/
structure RegisteredBinding where
  sequence : KeySequence
  action : Action
  deriving DecidableEq, Repr

/-- `InputMatcher` state (matcher.rs). -/
structure InputMatcher where
  bindings : List RegisteredBinding
  pendingKeys : List KeyBinding
  lastKeyTime : Option Nat
  sequenceTimeout : Nat
  deriving DecidableEq, Repr

/-- `InputMatcher::new`. -/
def InputMatcher.new (sequenceTimeout : Nat) : InputMatcher :=
  ⟨[], [], none, sequenceTimeout⟩

/-- `InputMatcher::register` — pushes onto the binding vector. -/
def InputMatcher.register (m : InputMatcher) (sequence : KeySequence) (action : Action) :
    InputMatcher :=
  { m with bindings := m.bindings ++ [⟨sequence, action⟩] }

/-- `InputMatcher::reset_sequence`. -/
def InputMatcher.resetSequence (m : InputMatcher) : InputMatcher :=
  { m with pendingKeys := [], lastKeyTime := none }

/-- `InputMatcher::find_complete_match` — first registered binding whose
sequence has the pending length and agrees elementwise with the pending keys. -/
def findCompleteMatch (bindings : List RegisteredBinding) (pending : List KeyBinding) :
    Option Action :=
  match bindings with
  | [] => none
  | b :: rest =>
    if b.sequence.keys.length == pending.length
        && ((b.sequence.keys.zip pending).all fun p => p.1 == p.2) then
      some b.action
    else
      findCompleteMatch rest pending

/-- `InputMatcher::has_partial_match` — some registered sequence is strictly
longer than the pending keys and agrees with them on its first
`pending.length` bindings. -/
def hasPartialMatch (bindings : List RegisteredBinding) (pending : List KeyBinding) : Bool :=
  bindings.any fun b =>
    decide (pending.length < b.sequence.keys.length)
      && (((b.sequence.keys.take pending.length).zip pending).all fun p => p.1 == p.2)

/-- `InputMatcher::process` (matcher.rs, lines 237-285). Returns the
`MatchResult` together with the updated matcher state. -/
def InputMatcher.process (m : InputMatcher) (event : KeyEvent) (now : Nat) :
    MatchResult × InputMatcher :=
  let m0 :=
    match m.lastKeyTime with
    | some last => if now - last > m.sequenceTimeout then m.resetSequence else m
    | none => m
  let keyBinding : KeyBinding := ⟨event.code, event.modifiers⟩
  let m1 := { m0 with pendingKeys := m0.pendingKeys ++ [keyBinding], lastKeyTime := some now }
  if hasPartialMatch m1.bindings m1.pendingKeys then
    (MatchResult.Pending, m1)
  else
    match findCompleteMatch m1.bindings m1.pendingKeys with
    | some action => (MatchResult.Matched action, m1.resetSequence)
    | none =>
      if m1.pendingKeys.length > 1 then
        let m2 := { m1 with pendingKeys := [keyBinding] }
        if hasPartialMatch m2.bindings m2.pendingKeys then
          (MatchResult.Pending, m2)
        else
          match findCompleteMatch m2.bindings m2.pendingKeys with
          | some action => (MatchResult.Matched action, m2.resetSequence)
          | none => (MatchResult.NoMatch, m2.resetSequence)
      else
        (MatchResult.NoMatch, m1.resetSequence)


/-! ## Helper lemmas about the matcher's scanning functions -/

/-- Elementwise boolean equality of zipped equal-length lists is list equality. -/
theorem zip_all_beq_iff_eq (xs ys : List KeyBinding) (h : xs.length = ys.length) :
    (((xs.zip ys).all fun p => p.1 == p.2) = true ↔ xs = ys) := by
  induction xs generalizing ys with
  | nil => cases ys with
    | nil => simp
    | cons y ys => simp at h
  | cons x xs ih =>
    cases ys with
    | nil => simp at h
    | cons y ys =>
      simp only [List.zip_cons_cons, List.all_cons, Bool.and_eq_true, beq_iff_eq,
        List.cons.injEq]
      rw [ih ys (by simpa using h)]

/-- `has_partial_match` holds exactly when some registered sequence strictly
extends the pending keys (equal on the first `pending.length` bindings). -/
theorem hasPartialMatch_iff (bindings : List RegisteredBinding) (pending : List KeyBinding) :
    hasPartialMatch bindings pending = true ↔
      ∃ b ∈ bindings, pending.length < b.sequence.keys.length ∧
        b.sequence.keys.take pending.length = pending := by
  unfold hasPartialMatch
  rw [List.any_eq_true]
  constructor
  · rintro ⟨b, hb, hcond⟩
    rw [Bool.and_eq_true, decide_eq_true_iff] at hcond
    obtain ⟨hlt, hall⟩ := hcond
    refine ⟨b, hb, hlt, ?_⟩
    have hlen : (b.sequence.keys.take pending.length).length = pending.length := by
      simp [List.length_take, Nat.min_eq_left (Nat.le_of_lt hlt)]
    exact (zip_all_beq_iff_eq _ _ hlen).1 hall
  · rintro ⟨b, hb, hlt, htake⟩
    refine ⟨b, hb, ?_⟩
    rw [Bool.and_eq_true, decide_eq_true_iff]
    refine ⟨hlt, ?_⟩
    have hlen : (b.sequence.keys.take pending.length).length = pending.length := by
      simp [List.length_take, Nat.min_eq_left (Nat.le_of_lt hlt)]
    exact (zip_all_beq_iff_eq _ _ hlen).2 htake

end Tuilib

namespace Tuilib

/-! ## Concrete scenario fixtures -/

def gKey : KeyBinding := KeyBinding.new (KeyCode.char 'g')
def qKey : KeyBinding := KeyBinding.new (KeyCode.char 'q')
def gEvent : KeyEvent := ⟨KeyCode.char 'g', KeyModifiers.NONE⟩
def qEvent : KeyEvent := ⟨KeyCode.char 'q', KeyModifiers.NONE⟩

/-- `"g"` bound to `single_g` and `"g g"` bound to `double_g`. -/
def mGG : InputMatcher :=
  ((InputMatcher.new 1000).register (KeySequence.single gKey) (Action.mk "single_g")).register
    (KeySequence.mk [gKey, gKey]) (Action.mk "double_g")

/-- Claim C1 (partial-match priority): within the sequence timeout, if the
pending keys extended by the incoming key form a proper prefix of some
registered sequence, `InputMatcher::process` returns `Pending` — the
partial-match check runs before the complete-match check, so `"g"` with both
`"g"` and `"g g"` registered waits rather than firing. Concretely, with
`single_g` on `"g"` and `double_g` on `"g g"`, the first `g` yields `Pending`
and a second `g` within the timeout yields `Matched double_g`. -/
theorem partial_match_priority :
    (∀ (m : InputMatcher) (event : KeyEvent) (now : Nat),
      (∀ t, m.lastKeyTime = some t → now - t ≤ m.sequenceTimeout) →
      (∃ b ∈ m.bindings,
        (m.pendingKeys ++ [KeyBinding.mk event.code event.modifiers]).length < b.sequence.keys.length ∧
        b.sequence.keys.take (m.pendingKeys ++ [KeyBinding.mk event.code event.modifiers]).length =
          m.pendingKeys ++ [KeyBinding.mk event.code event.modifiers]) →
      (m.process event now).1 = MatchResult.Pending) ∧
    (mGG.process gEvent 0).1 = MatchResult.Pending ∧
    ((mGG.process gEvent 0).2.process gEvent 10).1 = MatchResult.Matched ⟨"double_g"⟩ := by
  refine ⟨?_, by decide, by decide⟩
  intro m event now hts hex
  have hpm : hasPartialMatch m.bindings
      (m.pendingKeys ++ [KeyBinding.mk event.code event.modifiers]) = true :=
    (hasPartialMatch_iff _ _).2 hex
  obtain ⟨bs, pend, lkt, st⟩ := m
  cases lkt with
  | none =>
    simp [InputMatcher.process, hpm]
  | some t =>
    have hle : ¬ st < now - t := not_lt.mpr (hts t rfl)
    simp [InputMatcher.process, hle, hpm]

end Tuilib

namespace Tuilib

theorem partial_match_priority_witness :
    (mGG.process gEvent 0).1 = MatchResult.Pending :=
  partial_match_priority.1 mGG gEvent 0 (fun _ h => Option.noConfusion h) (by decide)

def ctrlXKey : KeyBinding := KeyBinding.withMods (KeyCode.char 'x') KeyModifiers.CTRL
def ctrlSKey : KeyBinding := KeyBinding.withMods (KeyCode.char 's') KeyModifiers.CTRL
def eCtrlX : KeyEvent := ⟨KeyCode.char 'x', KeyModifiers.CTRL⟩
def eCtrlS : KeyEvent := ⟨KeyCode.char 's', KeyModifiers.CTRL⟩

/-- `"Ctrl+s"` bound to `save` and `"Ctrl+x Ctrl+s"` bound to `save_all`,
with a 1000 ms timeout. -/
def mSave : InputMatcher :=
  ((InputMatcher.new 1000).register (KeySequence.single ctrlSKey) (Action.mk "save")).register
    (KeySequence.mk [ctrlXKey, ctrlSKey]) (Action.mk "save_all")

/-- Claim C2 (sequence timeout): if the elapsed time since the last key
strictly exceeds `sequence_timeout`, `InputMatcher::process` first clears the
pending sequence — processing the event exactly as a freshly reset matcher
would. Concretely, with `Ctrl+S` bound to `save` and `Ctrl+X Ctrl+S` bound to
`save_all` (default 1000 ms timeout), `Ctrl+X` then `Ctrl+S` 2000 ms later
matches `save`, not `save_all`. -/
theorem sequence_timeout :
    (∀ (m : InputMatcher) (event : KeyEvent) (now t : Nat),
      m.lastKeyTime = some t → now - t > m.sequenceTimeout →
      m.process event now = m.resetSequence.process event now) ∧
    (mSave.process eCtrlX 0).1 = MatchResult.Pending ∧
    ((mSave.process eCtrlX 0).2.process eCtrlS 2000).1 = MatchResult.Matched (Action.mk "save") := by
  refine ⟨?_, by decide, by decide⟩
  intro m event now t hl hgt
  obtain ⟨bs, pend, lkt, st⟩ := m
  cases hl
  simp [InputMatcher.process, InputMatcher.resetSequence, hgt]

theorem sequence_timeout_witness :
    (mSave.process eCtrlX 0).2.lastKeyTime = some 0 ∧
      2000 - 0 > (mSave.process eCtrlX 0).2.sequenceTimeout ∧
      ((mSave.process eCtrlX 0).2.process eCtrlS 2000 =
        ((mSave.process eCtrlX 0).2.resetSequence.process eCtrlS 2000)) :=
  ⟨by decide, by decide, sequence_timeout.1 _ eCtrlS 2000 0 (by decide) (by decide)⟩

end Tuilib

namespace Tuilib

/-- `"g g"` bound to `double_g` and `"q"` bound to `single_q_action`. -/
def mQG : InputMatcher :=
  ((InputMatcher.new 1000).register (KeySequence.mk [gKey, gKey]) (Action.mk "double_g")).register
    (KeySequence.single qKey) (Action.mk "single_q_action")

/-- `mQG` after processing a first `g` (a pending partial sequence). -/
def mQGpending : InputMatcher := (mQG.process gEvent 0).2

/-- Claim C3 (fallback restart): when a multi-key pending sequence matches
nothing — neither partially nor completely — `InputMatcher::process` retries
the current key alone as the start of a new sequence: pending if it prefixes
something, matched if it completes a single-key binding, `NoMatch` with a
full reset otherwise. Concretely, after a pending `g`, pressing `q` (with
`"q"` bound to `single_q_action`) yields `Matched single_q_action`. -/
theorem fallback_restart :
    (∀ (m : InputMatcher) (event : KeyEvent) (now : Nat),
      (∀ t, m.lastKeyTime = some t → now - t ≤ m.sequenceTimeout) →
      (m.pendingKeys ++ [KeyBinding.mk event.code event.modifiers]).length > 1 →
      hasPartialMatch m.bindings
          (m.pendingKeys ++ [KeyBinding.mk event.code event.modifiers]) = false →
      findCompleteMatch m.bindings
          (m.pendingKeys ++ [KeyBinding.mk event.code event.modifiers]) = none →
      m.process event now =
        (if hasPartialMatch m.bindings [KeyBinding.mk event.code event.modifiers] then
          (MatchResult.Pending,
            { m with pendingKeys := [KeyBinding.mk event.code event.modifiers],
                     lastKeyTime := some now })
        else
          match findCompleteMatch m.bindings [KeyBinding.mk event.code event.modifiers] with
          | some a => (MatchResult.Matched a, m.resetSequence)
          | none => (MatchResult.NoMatch, m.resetSequence))) ∧
    (mQGpending.process qEvent 10).1 = MatchResult.Matched (Action.mk "single_q_action") := by
  refine ⟨?_, by decide⟩
  intro m event now hts hlen hpm hfc
  obtain ⟨bs, pend, lkt, st⟩ := m
  have hcore : InputMatcher.process ⟨bs, pend, none, st⟩ event now =
      (if hasPartialMatch bs [KeyBinding.mk event.code event.modifiers] then
        (MatchResult.Pending,
          { bindings := bs, pendingKeys := [KeyBinding.mk event.code event.modifiers],
            lastKeyTime := some now, sequenceTimeout := st })
      else
        match findCompleteMatch bs [KeyBinding.mk event.code event.modifiers] with
        | some a => (MatchResult.Matched a,
            { bindings := bs, pendingKeys := [], lastKeyTime := none, sequenceTimeout := st })
        | none => (MatchResult.NoMatch,
            { bindings := bs, pendingKeys := [], lastKeyTime := none, sequenceTimeout := st })) := by
    have hp : 0 < pend.length := by
      by_contra hp0
      have : pend = [] := List.eq_nil_of_length_eq_zero (Nat.eq_zero_of_not_pos hp0)
      subst this
      simp at hlen
    simp [InputMatcher.process, hpm, hfc, InputMatcher.resetSequence, hp]
  cases lkt with
  | none => exact hcore
  | some t =>
    have hle : ¬ st < now - t := not_lt.mpr (hts t rfl)
    calc InputMatcher.process ⟨bs, pend, some t, st⟩ event now
        = InputMatcher.process ⟨bs, pend, none, st⟩ event now := by
          simp [InputMatcher.process, hle]
      _ = _ := hcore

end Tuilib

namespace Tuilib

theorem fallback_restart_witness :
    mQGpending.process qEvent 10 =
      (if hasPartialMatch mQGpending.bindings [KeyBinding.mk qEvent.code qEvent.modifiers] then
        (MatchResult.Pending,
          { mQGpending with pendingKeys := [KeyBinding.mk qEvent.code qEvent.modifiers],
                            lastKeyTime := some 10 })
      else
        match findCompleteMatch mQGpending.bindings
            [KeyBinding.mk qEvent.code qEvent.modifiers] with
        | some a => (MatchResult.Matched a, mQGpending.resetSequence)
        | none => (MatchResult.NoMatch, mQGpending.resetSequence)) :=
  fallback_restart.1 mQGpending qEvent 10
    (fun t h => by
      rw [show mQGpending.lastKeyTime = some 0 from by decide] at h
      cases h
      decide)
    (by decide) (by decide) (by decide)

/-- Claim C8 (matcher state hygiene): after any `InputMatcher::process` call,
a `Matched` or `NoMatch` outcome leaves the matcher fully reset (empty
pending keys, no last-key time), a `Pending` outcome leaves pending keys that
are a proper prefix of some registered sequence, and a matcher with no
bindings always answers `NoMatch`. -/
theorem matcher_state_hygiene :
    ∀ (m : InputMatcher) (event : KeyEvent) (now : Nat),
      ((∃ a, (m.process event now).1 = MatchResult.Matched a) →
        (m.process event now).2.pendingKeys = [] ∧
          (m.process event now).2.lastKeyTime = none) ∧
      ((m.process event now).1 = MatchResult.NoMatch →
        (m.process event now).2.pendingKeys = [] ∧
          (m.process event now).2.lastKeyTime = none) ∧
      ((m.process event now).1 = MatchResult.Pending →
        ∃ b ∈ m.bindings,
          (m.process event now).2.pendingKeys.length < b.sequence.keys.length ∧
            b.sequence.keys.take (m.process event now).2.pendingKeys.length =
              (m.process event now).2.pendingKeys) ∧
      (m.bindings = [] → (m.process event now).1 = MatchResult.NoMatch) := by
  intro m event now
  obtain ⟨bs, pend, lkt, st⟩ := m
  -- It suffices to prove the property for the matcher after the timeout step
  -- (whose `lastKeyTime` is `none`), since the bindings are untouched by it.
  suffices hcore : ∀ (p0 : List KeyBinding),
      (let r := InputMatcher.process ⟨bs, p0, none, st⟩ event now
      ((∃ a, r.1 = MatchResult.Matched a) →
        r.2.pendingKeys = [] ∧ r.2.lastKeyTime = none) ∧
      (r.1 = MatchResult.NoMatch →
        r.2.pendingKeys = [] ∧ r.2.lastKeyTime = none) ∧
      (r.1 = MatchResult.Pending →
        ∃ b ∈ bs, r.2.pendingKeys.length < b.sequence.keys.length ∧
          b.sequence.keys.take r.2.pendingKeys.length = r.2.pendingKeys) ∧
      (bs = [] → r.1 = MatchResult.NoMatch)) by
    cases lkt with
    | none => exact hcore pend
    | some t =>
      by_cases htm : st < now - t
      · have heq : InputMatcher.process ⟨bs, pend, some t, st⟩ event now =
            InputMatcher.process ⟨bs, [], none, st⟩ event now := by
          simp [InputMatcher.process, InputMatcher.resetSequence, htm]
        rw [heq]
        exact hcore []
      · have heq : InputMatcher.process ⟨bs, pend, some t, st⟩ event now =
            InputMatcher.process ⟨bs, pend, none, st⟩ event now := by
          simp [InputMatcher.process, htm]
        rw [heq]
        exact hcore pend
  intro p0
  by_cases h1 : hasPartialMatch bs (p0 ++ [KeyBinding.mk event.code event.modifiers]) = true
  · have hres : InputMatcher.process ⟨bs, p0, none, st⟩ event now =
        (MatchResult.Pending,
          ⟨bs, p0 ++ [KeyBinding.mk event.code event.modifiers], some now, st⟩) := by
      simp [InputMatcher.process, h1]
    refine ⟨?_, ?_, ?_, ?_⟩ <;> rw [hres]
    · rintro ⟨a, ha⟩; cases ha
    · intro ha; cases ha
    · intro _; exact (hasPartialMatch_iff _ _).1 h1
    · intro hbs; subst hbs; simp [hasPartialMatch] at h1
  · cases h2 : findCompleteMatch bs (p0 ++ [KeyBinding.mk event.code event.modifiers]) with
    | some a =>
      have hres : InputMatcher.process ⟨bs, p0, none, st⟩ event now =
          (MatchResult.Matched a, ⟨bs, [], none, st⟩) := by
        simp [InputMatcher.process, h1, h2, InputMatcher.resetSequence]
      refine ⟨?_, ?_, ?_, ?_⟩ <;> rw [hres]
      · exact fun _ => ⟨rfl, rfl⟩
      · intro ha; cases ha
      · intro ha; cases ha
      · intro hbs; subst hbs; simp [findCompleteMatch] at h2
    | none =>
      by_cases h3 : p0 = []
      · subst h3
        have h1n : ¬ hasPartialMatch bs [KeyBinding.mk event.code event.modifiers] = true := by
          simpa using h1
        have h2n : findCompleteMatch bs [KeyBinding.mk event.code event.modifiers] = none := by
          simpa using h2
        have hres : InputMatcher.process ⟨bs, [], none, st⟩ event now =
            (MatchResult.NoMatch, ⟨bs, [], none, st⟩) := by
          simp [InputMatcher.process, h1n, h2n, InputMatcher.resetSequence]
        refine ⟨?_, ?_, ?_, ?_⟩ <;> rw [hres]
        · rintro ⟨a, ha⟩; cases ha
        · exact fun _ => ⟨rfl, rfl⟩
        · intro ha; cases ha
        · exact fun _ => rfl
      · have hp : 0 < p0.length := List.length_pos.mpr h3
        by_cases h4 : hasPartialMatch bs [KeyBinding.mk event.code event.modifiers] = true
        · have hres : InputMatcher.process ⟨bs, p0, none, st⟩ event now =
              (MatchResult.Pending,
                ⟨bs, [KeyBinding.mk event.code event.modifiers], some now, st⟩) := by
            simp [InputMatcher.process, h1, h2, h4, hp]
          refine ⟨?_, ?_, ?_, ?_⟩ <;> rw [hres]
          · rintro ⟨a, ha⟩; cases ha
          · intro ha; cases ha
          · intro _; exact (hasPartialMatch_iff _ _).1 h4
          · intro hbs; subst hbs; simp [hasPartialMatch] at h4
        · cases h5 : findCompleteMatch bs [KeyBinding.mk event.code event.modifiers] with
          | some a =>
            have hres : InputMatcher.process ⟨bs, p0, none, st⟩ event now =
                (MatchResult.Matched a, ⟨bs, [], none, st⟩) := by
              simp [InputMatcher.process, h1, h2, h4, h5, hp, InputMatcher.resetSequence]
            refine ⟨?_, ?_, ?_, ?_⟩ <;> rw [hres]
            · exact fun _ => ⟨rfl, rfl⟩
            · intro ha; cases ha
            · intro ha; cases ha
            · intro hbs; subst hbs; simp [findCompleteMatch] at h5
          | none =>
            have hres : InputMatcher.process ⟨bs, p0, none, st⟩ event now =
                (MatchResult.NoMatch, ⟨bs, [], none, st⟩) := by
              simp [InputMatcher.process, h1, h2, h4, h5, hp, InputMatcher.resetSequence]
            refine ⟨?_, ?_, ?_, ?_⟩ <;> rw [hres]
            · rintro ⟨a, ha⟩; cases ha
            · exact fun _ => ⟨rfl, rfl⟩
            · intro ha; cases ha
            · exact fun _ => rfl

end Tuilib

namespace Tuilib

theorem matcher_state_hygiene_witness :
    ((InputMatcher.new 1000).process qEvent 0).1 = MatchResult.NoMatch :=
  (matcher_state_hygiene (InputMatcher.new 1000) qEvent 0).2.2.2 (by decide)

/-! ## Binding registry (bindings.rs) — HashMaps as association lists -/

/-- `HashMap::insert`: replace the value if the key is present, else add the
entry. (Iteration order of a `HashMap` is immaterial to the claims below.) -/
def mapInsert (m : List (KeySequence × Action)) (k : KeySequence) (v : Action) :
    List (KeySequence × Action) :=
  if m.any (fun p => p.1 == k) then
    m.map (fun p => if p.1 == k then (p.1, v) else p)
  else
    m ++ [(k, v)]

/-- `HashMap::get`. -/
def mapGet (m : List (KeySequence × Action)) (k : KeySequence) : Option Action :=
  (m.find? (fun p => p.1 == k)).map (·.2)

/-- Number of entries stored under a key. -/
def mapCountKey (m : List (KeySequence × Action)) (k : KeySequence) : Nat :=
  m.countP (fun p => p.1 == k)

/-- `KeyBindings` (bindings.rs): global map plus named context maps. -/
structure KeyBindings where
  global : List (KeySequence × Action)
  contexts : List (String × List (KeySequence × Action))

/-- `KeyBindings::lookup` (bindings.rs, lines 114-126): context map first,
then the global map; no context means global only. -/
def KeyBindings.lookup (kb : KeyBindings) (context : Option String) (sequence : KeySequence) :
    Option Action :=
  match context with
  | some ctxName =>
    match (kb.contexts.find? (fun p => p.1 == ctxName)).map (·.2) with
    | some ctxBindings =>
      match mapGet ctxBindings sequence with
      | some action => some action
      | none => mapGet kb.global sequence
    | none => mapGet kb.global sequence
  | none => mapGet kb.global sequence

/-- `KeyBindingsBuilder::bind` / `bind_sequence` end in
`self.global.insert(sequence, action)`. -/
def KeyBindings.bindGlobal (b : KeyBindings) (sequence : KeySequence) (action : Action) :
    KeyBindings :=
  { b with global := mapInsert b.global sequence action }

theorem aux_insert_preserves_key (k : KeySequence) (v : Action) :
    ((fun p : KeySequence × Action => p.1 == k) ∘
        fun p : KeySequence × Action => if p.1 == k then (p.1, v) else p) =
      fun p : KeySequence × Action => p.1 == k := by
  funext p
  by_cases hp : p.1 = k <;> simp [hp]

theorem mapGet_mapInsert_self (m : List (KeySequence × Action)) (k : KeySequence) (v : Action) :
    mapGet (mapInsert m k v) k = some v := by
  unfold mapInsert mapGet
  by_cases h : m.any (fun p => p.1 == k) = true
  · rw [if_pos h, List.find?_map, aux_insert_preserves_key]
    obtain ⟨q, hqmem, hq⟩ := List.any_eq_true.1 h
    have hsome : (m.find? (fun p => p.1 == k)).isSome :=
      (List.find?_isSome (p := fun p : KeySequence × Action => p.1 == k)).2 ⟨q, hqmem, hq⟩
    obtain ⟨r, hr⟩ := Option.isSome_iff_exists.1 hsome
    have hrk := List.find?_some hr
    have hrk1 : r.1 = k := by simpa using hrk
    rw [hr]
    simp [hrk1]
  · rw [if_neg h]
    have hnone : m.find? (fun p => p.1 == k) = none :=
      List.find?_eq_none.2 (fun x hx hpx => h (List.any_eq_true.2 ⟨x, hx, hpx⟩))
    rw [List.find?_append, hnone]
    simp

theorem mapCountKey_mapInsert (m : List (KeySequence × Action)) (k : KeySequence) (v : Action)
    (h : mapCountKey m k ≤ 1) :
    mapCountKey (mapInsert m k v) k = 1 := by
  unfold mapCountKey at h ⊢
  unfold mapInsert
  by_cases hany : m.any (fun p => p.1 == k) = true
  · rw [if_pos hany, List.countP_map, aux_insert_preserves_key]
    have hpos : 0 < m.countP (fun p => p.1 == k) := by
      obtain ⟨q, hqmem, hq⟩ := List.any_eq_true.1 hany
      exact List.countP_pos_iff.2 ⟨q, hqmem, hq⟩
    omega
  · rw [if_neg hany, List.countP_append]
    have hzero : m.countP (fun p => p.1 == k) = 0 :=
      List.countP_eq_zero.2 (fun x hx hpx => hany (List.any_eq_true.2 ⟨x, hx, hpx⟩))
    simp [hzero, List.countP_cons]

end Tuilib

namespace Tuilib

theorem findCompleteMatch_append (bs cs : List RegisteredBinding) (p : List KeyBinding) :
    findCompleteMatch (bs ++ cs) p =
      match findCompleteMatch bs p with
      | some a => some a
      | none => findCompleteMatch cs p := by
  induction bs with
  | nil => simp [findCompleteMatch]
  | cons b bs ih =>
    simp only [List.cons_append, findCompleteMatch]
    by_cases hc : (b.sequence.keys.length == p.length
        && ((b.sequence.keys.zip p).all fun q => q.1 == q.2)) = true
    · simp [hc]
    · simp [hc, ih]

theorem findCompleteMatch_cons_self (s : KeySequence) (a : Action)
    (rest : List RegisteredBinding) :
    findCompleteMatch (⟨s, a⟩ :: rest) s.keys = some a := by
  have hall : ((s.keys.zip s.keys).all fun q => q.1 == q.2) = true :=
    (zip_all_beq_iff_eq _ _ rfl).2 rfl
  simp [findCompleteMatch, hall]

theorem duplicate_registration_matcher_counterexample :
    (((InputMatcher.new 1000).register (KeySequence.single gKey) (Action.mk "first")).register
        (KeySequence.single gKey) (Action.mk "second")).bindings.length = 2 ∧
    ((((InputMatcher.new 1000).register (KeySequence.single gKey) (Action.mk "first")).register
        (KeySequence.single gKey) (Action.mk "second")).process gEvent 0).1 =
      MatchResult.Matched (Action.mk "first") := by decide

/-- Claim C9, amended (duplicate registration): in the `KeyBindings` registry
(`HashMap` scopes), re-binding an already-bound sequence overwrites — lookup
returns the second action and the scope holds exactly one entry for the
sequence, both globally and per context. In the `InputMatcher`, by contrast,
`register` appends to a `Vec`, so registering the same sequence twice leaves
two entries and `find_complete_match` returns the FIRST-registered action
(first-write-wins), not the second. -/
theorem duplicate_registration_scopes :
    (∀ (g : List (KeySequence × Action)) (cs : List (String × List (KeySequence × Action)))
        (s : KeySequence) (a1 a2 : Action),
      mapCountKey g s ≤ 1 →
      KeyBindings.lookup ⟨mapInsert (mapInsert g s a1) s a2, cs⟩ none s = some a2 ∧
        mapCountKey (mapInsert (mapInsert g s a1) s a2) s = 1) ∧
    (∀ (ctxName : String) (M g : List (KeySequence × Action)) (s : KeySequence) (a1 a2 : Action),
      mapCountKey M s ≤ 1 →
      KeyBindings.lookup ⟨g, [(ctxName, mapInsert (mapInsert M s a1) s a2)]⟩ (some ctxName) s =
          some a2 ∧
        mapCountKey (mapInsert (mapInsert M s a1) s a2) s = 1) ∧
    (∀ (m : InputMatcher) (s : KeySequence) (a1 a2 : Action),
      findCompleteMatch m.bindings s.keys = none →
      findCompleteMatch ((m.register s a1).register s a2).bindings s.keys = some a1 ∧
        ((m.register s a1).register s a2).bindings.length = m.bindings.length + 2) := by
  refine ⟨?_, ?_, ?_⟩
  · intro g cs s a1 a2 h
    have hcount : mapCountKey (mapInsert g s a1) s = 1 := mapCountKey_mapInsert g s a1 h
    refine ⟨?_, mapCountKey_mapInsert _ s a2 (by omega)⟩
    simp [KeyBindings.lookup, mapGet_mapInsert_self]
  · intro ctxName M g s a1 a2 h
    have hcount : mapCountKey (mapInsert M s a1) s = 1 := mapCountKey_mapInsert M s a1 h
    refine ⟨?_, mapCountKey_mapInsert _ s a2 (by omega)⟩
    simp [KeyBindings.lookup, mapGet_mapInsert_self]
  · intro m s a1 a2 h
    constructor
    · have : ((m.register s a1).register s a2).bindings =
          m.bindings ++ [⟨s, a1⟩, ⟨s, a2⟩] := by
        simp [InputMatcher.register]
      rw [this, findCompleteMatch_append, h, findCompleteMatch_cons_self]
    · simp [InputMatcher.register]

theorem duplicate_registration_scopes_witness :
    KeyBindings.lookup
        ⟨mapInsert (mapInsert [] (KeySequence.single gKey) (Action.mk "first"))
            (KeySequence.single gKey) (Action.mk "second"), []⟩ none
        (KeySequence.single gKey) = some (Action.mk "second") ∧
      mapCountKey
        (mapInsert (mapInsert [] (KeySequence.single gKey) (Action.mk "first"))
          (KeySequence.single gKey) (Action.mk "second")) (KeySequence.single gKey) = 1 :=
  duplicate_registration_scopes.1 [] [] (KeySequence.single gKey)
    (Action.mk "first") (Action.mk "second") (by decide)

end Tuilib

namespace Tuilib

/-! ## Action handler contract (handler.rs) -/

/-- `Phase` (handler.rs). -/
inductive Phase where
  | Capture
  | Bubble
  deriving DecidableEq, Repr

/-- `HandleResult` (handler.rs). -/
inductive HandleResult where
  | Continue
  | Handled
  | Ignored
  deriving DecidableEq, Repr

/-- `HandleResult::should_stop`. -/
def HandleResult.shouldStop : HandleResult → Bool
  | .Handled => true
  | _ => false

/-- `HandleResult::is_handled`. -/
def HandleResult.isHandled : HandleResult → Bool
  | .Handled => true
  | _ => false

mutual

/-- A handler tree node. The `ActionHandler` trait object is modelled as a
tree whose `respond` field is the node's (pure) `handle` behaviour; the
dispatch functions below record every `handle(action, phase)` invocation in
an explicit trace, which is the observable the source's side effects give. -/
inductive Handler where
  | mk (ident : String) (respond : Action → Phase → HandleResult) (focused : Bool)
      (children : HandlerList)

/-- `Vec<Box<dyn ActionHandler>>` of children. -/
inductive HandlerList where
  | nil
  | cons (head : Handler) (tail : HandlerList)

end

def Handler.ident : Handler → String
  | .mk i _ _ _ => i

def Handler.respond : Handler → Action → Phase → HandleResult
  | .mk _ r _ _ => r

def Handler.focused : Handler → Bool
  | .mk _ _ f _ => f

def Handler.children : Handler → HandlerList
  | .mk _ _ _ c => c

/-- Indexing into the children (`children[child_idx]` guarded by
`child_idx < children.len()`). -/
def HandlerList.get? : HandlerList → Nat → Option Handler
  | .nil, _ => none
  | .cons h _, 0 => some h
  | .cons _ t, n + 1 => t.get? n

mutual

/-- `ActionHandler::find_focus_path` (handler.rs, lines 245-258):
depth-first search for the first focused node, as child indices. -/
def Handler.findFocusPath : Handler → Option (List Nat)
  | .mk _ _ focused children =>
    if focused then some [] else HandlerList.findFocusInChildren children 0
termination_by h => sizeOf h

/-- The enumerated-children loop of `find_focus_path`. -/
def HandlerList.findFocusInChildren : HandlerList → Nat → Option (List Nat)
  | .nil, _ => none
  | .cons h t, i =>
    match h.findFocusPath with
    | some path => some (i :: path)
    | none => HandlerList.findFocusInChildren t (i + 1)
termination_by l _ => sizeOf l

end

/-! ## Action router (router.rs) -/

/-- `DispatchResult` (router.rs). -/
structure DispatchResult where
  result : HandleResult
  handledBy : Option String
  handledIn : Option Phase
  propagationStopped : Bool
  deriving DecidableEq, Repr

/-- `DispatchResult::not_handled`. -/
def DispatchResult.notHandled : DispatchResult :=
  ⟨HandleResult.Ignored, none, none, false⟩

/-- `DispatchResult::handled`. -/
def DispatchResult.handled (who : String) (phase : Phase) : DispatchResult :=
  ⟨HandleResult.Handled, some who, some phase, true⟩

/-- `DispatchResult::was_handled`. -/
def DispatchResult.wasHandled (r : DispatchResult) : Bool :=
  r.result.isHandled

/-- `ActionRouter::capture_phase` (router.rs, lines 203-231): handle at the
current node; `Handled` ends the dispatch; otherwise descend to the focus
child if its index is in range. The second component is the trace of
`handle` invocations. -/
def capturePhase (handler : Handler) (action : Action) (focusPath : List Nat) :
    Option DispatchResult × List (String × Phase) :=
  if (handler.respond action Phase.Capture).shouldStop then
    (some (DispatchResult.handled handler.ident Phase.Capture),
      [(handler.ident, Phase.Capture)])
  else
    match focusPath with
    | childIdx :: rest =>
      match handler.children.get? childIdx with
      | some child =>
        let (res, tr) := capturePhase child action rest
        (res, (handler.ident, Phase.Capture) :: tr)
      | none => (none, [(handler.ident, Phase.Capture)])
    | [] => (none, [(handler.ident, Phase.Capture)])

/-- `ActionRouter::bubble_phase` (router.rs, lines 234-261): recurse first to
the focus child (if its index is in range); a handled child result returns
immediately; otherwise handle at the current node. The second component is
the trace of `handle` invocations. -/
def bubblePhase (handler : Handler) (action : Action) (focusPath : List Nat) :
    DispatchResult × List (String × Phase) :=
  match focusPath with
  | childIdx :: rest =>
    match handler.children.get? childIdx with
    | some child =>
      let (r, tr) := bubblePhase child action rest
      if r.wasHandled then (r, tr)
      else if (handler.respond action Phase.Bubble).shouldStop then
        (DispatchResult.handled handler.ident Phase.Bubble,
          tr ++ [(handler.ident, Phase.Bubble)])
      else
        (DispatchResult.notHandled, tr ++ [(handler.ident, Phase.Bubble)])
    | none =>
      if (handler.respond action Phase.Bubble).shouldStop then
        (DispatchResult.handled handler.ident Phase.Bubble, [(handler.ident, Phase.Bubble)])
      else
        (DispatchResult.notHandled, [(handler.ident, Phase.Bubble)])
  | [] =>
    if (handler.respond action Phase.Bubble).shouldStop then
      (DispatchResult.handled handler.ident Phase.Bubble, [(handler.ident, Phase.Bubble)])
    else
      (DispatchResult.notHandled, [(handler.ident, Phase.Bubble)])

/-- `ActionRouter::dispatch_internal` (router.rs, lines 187-200): capture
phase first; a capture result wins outright, else the bubble phase decides. -/
def dispatchInternal (root : Handler) (action : Action) (focusPath : List Nat) :
    DispatchResult × List (String × Phase) :=
  match capturePhase root action focusPath with
  | (some result, tr) => (result, tr)
  | (none, tr) =>
    let (r, tr2) := bubblePhase root action focusPath
    (r, tr ++ tr2)

/-! ## Middleware chain (middleware.rs) -/

/-- `MiddlewareResult` (middleware.rs). -/
inductive MiddlewareResult where
  | Continue (transformed : Option Action)
  | Stop

/-- One `ActionMiddleware`: its name and its (pure) `before` behaviour.
The `after` hook only observes, so the embedding records which middleware
would have its `after` invoked rather than modelling its body. -/
structure Middleware where
  name : String
  before : Action → MiddlewareResult

/-- `MiddlewareChain::process_before` (middleware.rs, lines 208-221):
run each `before` in registration order, threading transformations;
`Stop` aborts with `None`. Also returns the trace of `(name, action seen)`
of the `before` invocations, in order. -/
def processBefore : List Middleware → Action → Option Action × List (String × Action)
  | [], action => (some action, [])
  | m :: rest, action =>
    match m.before action with
    | MiddlewareResult.Continue (some transformed) =>
      let (r, tr) := processBefore rest transformed
      (r, (m.name, action) :: tr)
    | MiddlewareResult.Continue none =>
      let (r, tr) := processBefore rest action
      (r, (m.name, action) :: tr)
    | MiddlewareResult.Stop => (none, [(m.name, action)])

/-- `MiddlewareChain::process_after` iterates `after` in reverse registration
order; this is the order of `after` invocations it performs. -/
def processAfterTrace (middleware : List Middleware) : List String :=
  (middleware.map (·.name)).reverse

/-- The observable outcome of one `ActionRouter::dispatch` call: the
`DispatchResult` plus the traces of `before`, `handle` and `after`
invocations. -/
structure RouterOutcome where
  res : DispatchResult
  beforeTrace : List (String × Action)
  handlerTrace : List (String × Phase)
  afterTrace : List String
  deriving DecidableEq, Repr

/-- `ActionRouter::dispatch` (router.rs, lines 167-184): before-chain (a
`Stop` returns `not_handled` with no handler and no `after` invoked), then
focus-path computation, two-phase dispatch, and the after-chain. -/
def ActionRouter.dispatch (middleware : List Middleware) (root : Handler) (action : Action) :
    RouterOutcome :=
  match processBefore middleware action with
  | (none, btr) => ⟨DispatchResult.notHandled, btr, [], []⟩
  | (some action', btr) =>
    let focusPath := (root.findFocusPath).getD []
    let (res, htr) := dispatchInternal root action' focusPath
    ⟨res, btr, htr, processAfterTrace middleware⟩

/-- `ActionRouter::dispatch_to_path` (router.rs, lines 298-317): same engine,
caller-supplied path. -/
def ActionRouter.dispatchToPath (middleware : List Middleware) (root : Handler)
    (action : Action) (path : List Nat) : RouterOutcome :=
  match processBefore middleware action with
  | (none, btr) => ⟨DispatchResult.notHandled, btr, [], []⟩
  | (some action', btr) =>
    let (res, htr) := dispatchInternal root action' path
    ⟨res, btr, htr, processAfterTrace middleware⟩

end Tuilib

namespace Tuilib

/-! ## Spec-side descriptions of the dispatch paths -/

/-- The nodes visited along a focus path from the root: the root, then the
child at each successive index while the indices stay in range. -/
def chainNodes (t : Handler) : List Nat → List Handler
  | [] => [t]
  | i :: rest =>
    match t.children.get? i with
    | some c => t :: chainNodes c rest
    | none => [t]

theorem chainNodes_cons (t : Handler) (p : List Nat) :
    ∃ l, chainNodes t p = t :: l := by
  cases p with
  | nil => exact ⟨[], rfl⟩
  | cons i rest =>
    unfold chainNodes
    cases t.children.get? i with
    | some c => exact ⟨chainNodes c rest, rfl⟩
    | none => exact ⟨[], rfl⟩

theorem capturePhase_some_spec :
    ∀ (p : List Nat) (t : Handler) (a : Action) (r : DispatchResult)
      (tr : List (String × Phase)),
      capturePhase t a p = (some r, tr) →
      r.result = HandleResult.Handled ∧
      r.handledIn = some Phase.Capture ∧
      (∀ e ∈ tr, e.2 = Phase.Capture) ∧
      tr.map Prod.fst = ((chainNodes t p).map Handler.ident).take tr.length ∧
      (∃ n ∈ chainNodes t p, r = DispatchResult.handled n.ident Phase.Capture) := by
  intro p
  induction p with
  | nil =>
    intro t a r tr h
    unfold capturePhase at h
    by_cases hs : (t.respond a Phase.Capture).shouldStop = true
    · rw [if_pos hs] at h
      rw [Prod.mk.injEq] at h
      obtain ⟨hr, htr⟩ := h
      cases hr
      subst htr
      refine ⟨rfl, rfl, by simp, by simp [chainNodes, DispatchResult.handled], ?_⟩
      exact ⟨t, by simp [chainNodes], rfl⟩
    · rw [if_neg hs] at h
      rw [Prod.mk.injEq] at h
      exact absurd h.1 (by simp)
  | cons i rest ih =>
    intro t a r tr h
    unfold capturePhase at h
    by_cases hs : (t.respond a Phase.Capture).shouldStop = true
    · rw [if_pos hs] at h
      rw [Prod.mk.injEq] at h
      obtain ⟨hr, htr⟩ := h
      cases hr
      subst htr
      obtain ⟨l, hl⟩ := chainNodes_cons t (i :: rest)
      refine ⟨rfl, rfl, by simp, by simp [hl, DispatchResult.handled], ?_⟩
      exact ⟨t, by simp [hl], rfl⟩
    · rw [if_neg hs] at h
      cases hc : t.children.get? i with
      | some c =>
        simp only [hc] at h
        rcases hcp : capturePhase c a rest with ⟨res, tr2⟩
        rw [hcp] at h
        simp only [Prod.mk.injEq] at h
        obtain ⟨hres, htr⟩ := h
        subst htr
        obtain ⟨h1, h2, h3, h4, n, hn, h5⟩ := ih c a r tr2 (by rw [hcp, hres])
        have hchain : chainNodes t (i :: rest) = t :: chainNodes c rest := by
          simp [chainNodes, hc]
        refine ⟨h1, h2, ?_, ?_, ?_⟩
        · intro e he
          rcases List.mem_cons.1 he with he | he
          · rw [he]
          · exact h3 e he
        · simp [hchain, h4]
        · exact ⟨n, by simp [hchain, hn], h5⟩
      | none =>
        simp only [hc, Prod.mk.injEq] at h
        exact absurd h.1 (by simp)

end Tuilib

namespace Tuilib

/-- A focused leaf that handles nothing. -/
def focusedLeafT : Handler := .mk "leaf" (fun _ _ => HandleResult.Continue) true .nil

/-- A root that handles everything during Capture, with a focused child. -/
def rootCapT : Handler :=
  .mk "root"
    (fun _ ph => if ph = Phase.Capture then HandleResult.Handled else HandleResult.Continue)
    false (.cons focusedLeafT .nil)

theorem rootCapT_focus : rootCapT.findFocusPath = some [0] := by
  simp [rootCapT, focusedLeafT, Handler.findFocusPath, HandlerList.findFocusInChildren,
    Handler.focused, Handler.children]

/-- Claim C4 (capture pre-emption): a handler whose `handle` returns `Handled`
during the Capture phase stops dispatch immediately — the internal dispatch of
`ActionRouter::dispatch_internal` returns `handled(t.id, Capture)` with a trace
containing only that capture visit, and in general whenever the capture phase
resolves the action, the result records `Handled` in `Phase::Capture`, every
visited node was visited in Capture, the visits follow the focus chain
root-to-target in order, and the handling node lies on the chain (so bubble
handlers below are never invoked). Concretely, on a tree whose root intercepts
`close_all` in Capture above a focused leaf, the focus path is `[0]` and
dispatch to that path yields `handled("root", Capture)` after the single trace
entry `("root", Capture)`. -/
theorem capture_preemption :
    (∀ (t : Handler) (a : Action) (p : List Nat),
      (t.respond a Phase.Capture).shouldStop = true →
      dispatchInternal t a p =
        (DispatchResult.handled t.ident Phase.Capture, [(t.ident, Phase.Capture)])) ∧
    (∀ (p : List Nat) (t : Handler) (a : Action) (r : DispatchResult)
        (tr : List (String × Phase)),
      capturePhase t a p = (some r, tr) →
      dispatchInternal t a p = (r, tr) ∧
      r.result = HandleResult.Handled ∧
      r.handledIn = some Phase.Capture ∧
      (∀ e ∈ tr, e.2 = Phase.Capture) ∧
      tr.map Prod.fst = ((chainNodes t p).map Handler.ident).take tr.length ∧
      (∃ n ∈ chainNodes t p, r = DispatchResult.handled n.ident Phase.Capture)) ∧
    rootCapT.findFocusPath = some [0] ∧
    ActionRouter.dispatchToPath [] rootCapT (Action.mk "close_all") [0] =
      ⟨DispatchResult.handled "root" Phase.Capture, [], [("root", Phase.Capture)], []⟩ := by
  refine ⟨?_, ?_, rootCapT_focus, by decide⟩
  · intro t a p hs
    have hcap : capturePhase t a p =
        (some (DispatchResult.handled t.ident Phase.Capture), [(t.ident, Phase.Capture)]) := by
      unfold capturePhase
      rw [if_pos hs]
    unfold dispatchInternal
    rw [hcap]
  · intro p t a r tr h
    refine ⟨?_, capturePhase_some_spec p t a r tr h⟩
    unfold dispatchInternal
    rw [h]

theorem capture_preemption_witness :
    dispatchInternal rootCapT (Action.mk "close_all") [0] =
      (DispatchResult.handled rootCapT.ident Phase.Capture,
        [(rootCapT.ident, Phase.Capture)]) :=
  capture_preemption.1 rootCapT (Action.mk "close_all") [0] (by decide)

end Tuilib

namespace Tuilib

@[simp] theorem wasHandled_handled (who : String) (ph : Phase) :
    (DispatchResult.handled who ph).wasHandled = true := rfl

@[simp] theorem wasHandled_notHandled :
    DispatchResult.notHandled.wasHandled = false := rfl

/-- Spec-side description of the bubble phase (§4.6 step 4 of the spec):
visit the given nodes in order (the focus chain reversed, i.e. target back to
root), calling `handle(action, Bubble)` at each; the first `Handled` stops the
unwinding and determines the `DispatchResult`. -/
def bubbleSpecScan (nodes : List Handler) (a : Action) :
    DispatchResult × List (String × Phase) :=
  match nodes with
  | [] => (DispatchResult.notHandled, [])
  | n :: rest =>
    if (n.respond a Phase.Bubble).shouldStop then
      (DispatchResult.handled n.ident Phase.Bubble, [(n.ident, Phase.Bubble)])
    else
      let (r, tr) := bubbleSpecScan rest a
      (r, (n.ident, Phase.Bubble) :: tr)

theorem bubbleSpecScan_append (xs ys : List Handler) (a : Action) :
    bubbleSpecScan (xs ++ ys) a =
      if (bubbleSpecScan xs a).1.wasHandled then bubbleSpecScan xs a
      else ((bubbleSpecScan ys a).1, (bubbleSpecScan xs a).2 ++ (bubbleSpecScan ys a).2) := by
  induction xs with
  | nil => simp [bubbleSpecScan]
  | cons n xs ih =>
    by_cases hs : (n.respond a Phase.Bubble).shouldStop = true
    · simp [bubbleSpecScan, hs]
    · simp only [List.cons_append, bubbleSpecScan, hs, if_false, Bool.false_eq_true,
        if_neg, ite_false]
      rw [List.append_eq, ih]
      by_cases hw : (bubbleSpecScan xs a).1.wasHandled = true
      · simp [hw]
      · simp [hw]

theorem bubblePhase_eq_scan (p : List Nat) :
    ∀ (t : Handler) (a : Action),
      bubblePhase t a p = bubbleSpecScan ((chainNodes t p).reverse) a := by
  induction p with
  | nil =>
    intro t a
    by_cases hs : (t.respond a Phase.Bubble).shouldStop = true
    · simp [bubblePhase, bubbleSpecScan, chainNodes, hs]
    · simp [bubblePhase, bubbleSpecScan, chainNodes, hs]
  | cons i rest ih =>
    intro t a
    cases hc : t.children.get? i with
    | none =>
      have hchain : chainNodes t (i :: rest) = [t] := by simp [chainNodes, hc]
      by_cases hs : (t.respond a Phase.Bubble).shouldStop = true
      · simp [bubblePhase, hc, hchain, bubbleSpecScan, hs]
      · simp [bubblePhase, hc, hchain, bubbleSpecScan, hs]
    | some c =>
      have hchain : chainNodes t (i :: rest) = t :: chainNodes c rest := by
        simp [chainNodes, hc]
      rw [hchain, List.reverse_cons, bubbleSpecScan_append, ← ih c a]
      conv_lhs => rw [bubblePhase.eq_def]
      simp only [hc]
      rcases hbp : bubblePhase c a rest with ⟨r, tr⟩
      by_cases hw : r.wasHandled = true
      · simp [hbp, hw]
      · by_cases hs : (t.respond a Phase.Bubble).shouldStop = true
        · simp [hbp, hw, hs, bubbleSpecScan]
        · simp [hbp, hw, hs, bubbleSpecScan]

end Tuilib

namespace Tuilib

/-- 3-level tree: focused leaf (handles nothing), middle handles in Bubble,
root would handle in Bubble but is never reached. -/
def leafBubT : Handler := .mk "leaf" (fun _ _ => HandleResult.Continue) true .nil
def midBubT : Handler :=
  .mk "middle"
    (fun _ ph => if ph = Phase.Bubble then HandleResult.Handled else HandleResult.Continue)
    false (.cons leafBubT .nil)
def rootBubT : Handler :=
  .mk "root" (fun _ _ => HandleResult.Continue) false (.cons midBubT .nil)

theorem rootBubT_focus : rootBubT.findFocusPath = some [0, 0] := by
  simp [rootBubT, midBubT, leafBubT, Handler.findFocusPath, HandlerList.findFocusInChildren,
    Handler.focused, Handler.children]

/-- Claim C5 (bubble order): when the capture phase does not consume the
action, the bubble phase visits the focus-chain nodes in reverse order —
target first, back up to the root — and the first handler returning `Handled`
in Bubble ends the dispatch (`bubbleSpecScan` is the spec's description of
that unwinding, and `dispatch_internal` refines it). Concretely, on a 3-level
tree whose focused leaf handles nothing and whose middle node handles `go` in
Bubble, the focus path is `[0, 0]` and dispatch visits root, middle, leaf in
Capture, then leaf, middle in Bubble, stopping at middle with
`handled("middle", Bubble)` — the root's bubble handler is never reached. -/
theorem bubble_order :
    (∀ (t : Handler) (a : Action) (p : List Nat),
      (capturePhase t a p).1 = none →
      dispatchInternal t a p =
        ((bubbleSpecScan ((chainNodes t p).reverse) a).1,
          (capturePhase t a p).2 ++ (bubbleSpecScan ((chainNodes t p).reverse) a).2)) ∧
    rootBubT.findFocusPath = some [0, 0] ∧
    ActionRouter.dispatchToPath [] rootBubT (Action.mk "go") [0, 0] =
      ⟨DispatchResult.handled "middle" Phase.Bubble, [],
        [("root", Phase.Capture), ("middle", Phase.Capture), ("leaf", Phase.Capture),
          ("leaf", Phase.Bubble), ("middle", Phase.Bubble)], []⟩ := by
  refine ⟨?_, rootBubT_focus, by decide⟩
  intro t a p h
  unfold dispatchInternal
  rcases hcp : capturePhase t a p with ⟨o, tr⟩
  rw [hcp] at h
  cases o with
  | some r => simp at h
  | none =>
    simp only []
    rw [bubblePhase_eq_scan]

theorem bubble_order_witness :
    dispatchInternal rootBubT (Action.mk "go") [0, 0] =
      ((bubbleSpecScan ((chainNodes rootBubT [0, 0]).reverse) (Action.mk "go")).1,
        (capturePhase rootBubT (Action.mk "go") [0, 0]).2 ++
          (bubbleSpecScan ((chainNodes rootBubT [0, 0]).reverse) (Action.mk "go")).2) :=
  bubble_order.1 rootBubT (Action.mk "go") [0, 0] (by decide)

end Tuilib

namespace Tuilib

/-- Composing `process_before` over an append: the middleware after `xs` see
the action as transformed by `xs`, in registration order. -/
theorem processBefore_append (xs : List Middleware) :
    ∀ (ys : List Middleware) (a b : Action) (trx : List (String × Action)),
      processBefore xs a = (some b, trx) →
      processBefore (xs ++ ys) a =
        ((processBefore ys b).1, trx ++ (processBefore ys b).2) := by
  induction xs with
  | nil =>
    intro ys a b trx h
    simp only [processBefore, Prod.mk.injEq] at h
    obtain ⟨hb, htr⟩ := h
    cases hb
    subst htr
    simp
  | cons m xs ih =>
    intro ys a b trx h
    cases hm : m.before a with
    | Continue t =>
      cases t with
      | some transformed =>
        rcases hp : processBefore xs transformed with ⟨r, tr⟩
        simp only [processBefore, hm, hp, Prod.mk.injEq] at h
        obtain ⟨hr, htr⟩ := h
        subst hr
        subst htr
        simp only [List.cons_append, processBefore, hm]
        rw [List.append_eq, ih ys transformed b tr hp]
      | none =>
        rcases hp : processBefore xs a with ⟨r, tr⟩
        simp only [processBefore, hm, hp, Prod.mk.injEq] at h
        obtain ⟨hr, htr⟩ := h
        subst hr
        subst htr
        simp only [List.cons_append, processBefore, hm]
        rw [List.append_eq, ih ys a b tr hp]
    | Stop =>
      simp only [processBefore, hm, Prod.mk.injEq] at h
      exact absurd h.1 (by simp)

end Tuilib

namespace Tuilib

/-- A middleware whose `before` always returns `Stop`. -/
def stopMW : Middleware := ⟨"stopper", fun _ => MiddlewareResult.Stop⟩

/-- Claim C6 (middleware Stop aborts): if some middleware in the before-chain
returns `Stop` (on the action as transformed by its predecessors),
`ActionRouter::dispatch` returns `not_handled` immediately — no handler is
visited and no `after` hook runs; the before-trace ends at the stopping
middleware. The second conjunct is the chaining law: middleware after a
prefix see the action as transformed by that prefix, in registration
order. -/
theorem middleware_stop_aborts :
    (∀ (xs ys : List Middleware) (m : Middleware) (root : Handler) (a b : Action)
        (trx : List (String × Action)),
      processBefore xs a = (some b, trx) →
      m.before b = MiddlewareResult.Stop →
      ActionRouter.dispatch (xs ++ m :: ys) root a =
        ⟨DispatchResult.notHandled, trx ++ [(m.name, b)], [], []⟩ ∧
      (ActionRouter.dispatch (xs ++ m :: ys) root a).res.wasHandled = false) ∧
    (∀ (xs ys : List Middleware) (a b : Action) (trx : List (String × Action)),
      processBefore xs a = (some b, trx) →
      processBefore (xs ++ ys) a =
        ((processBefore ys b).1, trx ++ (processBefore ys b).2)) := by
  constructor
  · intro xs ys m root a b trx hx hstop
    have hall : processBefore (xs ++ m :: ys) a = (none, trx ++ [(m.name, b)]) := by
      rw [processBefore_append xs (m :: ys) a b trx hx]
      simp [processBefore, hstop]
    constructor
    · unfold ActionRouter.dispatch
      rw [hall]
    · unfold ActionRouter.dispatch
      rw [hall]
      rfl
  · exact processBefore_append

theorem middleware_stop_aborts_witness :
    ActionRouter.dispatch ([] ++ stopMW :: []) rootBubT (Action.mk "go") =
      ⟨DispatchResult.notHandled, [] ++ [(stopMW.name, Action.mk "go")], [], []⟩ ∧
    (ActionRouter.dispatch ([] ++ stopMW :: []) rootBubT (Action.mk "go")).res.wasHandled
      = false :=
  middleware_stop_aborts.1 [] [] stopMW rootBubT (Action.mk "go") (Action.mk "go") []
    rfl rfl

/-! ## Stale focus paths (claim C7) -/

/-- Following child indices from a node (all indices in range), the node a
path prefix leads to. -/
def navigate : Handler → List Nat → Option Handler
  | t, [] => some t
  | t, i :: rest =>
    match t.children.get? i with
    | some c => navigate c rest
    | none => none

theorem capturePhase_stale (p1 : List Nat) :
    ∀ (t n : Handler) (a : Action) (i : Nat) (p2 : List Nat),
      navigate t p1 = some n → n.children.get? i = none →
      capturePhase t a (p1 ++ i :: p2) = capturePhase t a p1 := by
  induction p1 with
  | nil =>
    intro t n a i p2 hnav hi
    have ht : t = n := by
      simpa [navigate] using hnav
    subst ht
    by_cases hs : (t.respond a Phase.Capture).shouldStop = true
    · simp [capturePhase, hs]
    · simp [capturePhase, hs, hi]
  | cons j rest ih =>
    intro t n a i p2 hnav hi
    cases hc : t.children.get? j with
    | none => simp [navigate, hc] at hnav
    | some c =>
      have hnav' : navigate c rest = some n := by
        simpa [navigate, hc] using hnav
      by_cases hs : (t.respond a Phase.Capture).shouldStop = true
      · simp [capturePhase, hs]
      · simp only [List.cons_append, capturePhase, hs, if_neg, Bool.false_eq_true, ite_false,
          hc]
        rw [List.append_eq, ih c n a i p2 hnav' hi]

theorem bubblePhase_stale (p1 : List Nat) :
    ∀ (t n : Handler) (a : Action) (i : Nat) (p2 : List Nat),
      navigate t p1 = some n → n.children.get? i = none →
      bubblePhase t a (p1 ++ i :: p2) = bubblePhase t a p1 := by
  induction p1 with
  | nil =>
    intro t n a i p2 hnav hi
    have ht : t = n := by
      simpa [navigate] using hnav
    subst ht
    simp [bubblePhase, hi]
  | cons j rest ih =>
    intro t n a i p2 hnav hi
    cases hc : t.children.get? j with
    | none => simp [navigate, hc] at hnav
    | some c =>
      have hnav' : navigate c rest = some n := by
        simpa [navigate, hc] using hnav
      simp only [List.cons_append, bubblePhase, hc]
      rw [List.append_eq, ih c n a i p2 hnav' hi]

/-- Claim C7 (stale focus path): a focus path whose tail no longer exists in
the tree is harmless — both capture and bubble stop descending at the first
index that is out of bounds, so dispatching along `p1 ++ i :: p2` where `i`
is invalid at the node `p1` reaches behaves exactly like dispatching along
the valid prefix `p1`; no panic, no skipped handler above the break. -/
theorem stale_focus_path :
    (∀ (t n : Handler) (a : Action) (p1 : List Nat) (i : Nat) (p2 : List Nat),
      navigate t p1 = some n → n.children.get? i = none →
      dispatchInternal t a (p1 ++ i :: p2) = dispatchInternal t a p1) ∧
    (∀ (middleware : List Middleware) (t n : Handler) (a : Action) (p1 : List Nat)
        (i : Nat) (p2 : List Nat),
      navigate t p1 = some n → n.children.get? i = none →
      ActionRouter.dispatchToPath middleware t a (p1 ++ i :: p2) =
        ActionRouter.dispatchToPath middleware t a p1) := by
  have hint : ∀ (t n : Handler) (a : Action) (p1 : List Nat) (i : Nat) (p2 : List Nat),
      navigate t p1 = some n → n.children.get? i = none →
      dispatchInternal t a (p1 ++ i :: p2) = dispatchInternal t a p1 := by
    intro t n a p1 i p2 hnav hi
    unfold dispatchInternal
    rw [capturePhase_stale p1 t n a i p2 hnav hi, bubblePhase_stale p1 t n a i p2 hnav hi]
  refine ⟨hint, ?_⟩
  intro middleware t n a p1 i p2 hnav hi
  unfold ActionRouter.dispatchToPath
  rcases hpb : processBefore middleware a with ⟨o, btr⟩
  cases o with
  | none => simp
  | some a' => simp [hint t n a' p1 i p2 hnav hi]

theorem stale_focus_path_witness :
    dispatchInternal rootBubT (Action.mk "go") ([0] ++ 5 :: []) =
      dispatchInternal rootBubT (Action.mk "go") [0] :=
  stale_focus_path.1 rootBubT midBubT (Action.mk "go") [0] 5 [] rfl rfl

end Tuilib

namespace Tuilib

/-! ## String parser (parser.rs). Rust `&str` values are `List Char`. -/

/-- `str::trim`. -/
def trimChars (s : List Char) : List Char :=
  ((s.dropWhile Char.isWhitespace).reverse.dropWhile Char.isWhitespace).reverse

/-- `str::split` on a character class: the substrings between separator
occurrences, keeping empty pieces (as Rust's `split` does). -/
def splitChars (sep : Char → Bool) : List Char → List (List Char)
  | [] => [[]]
  | c :: rest =>
    if sep c then [] :: splitChars sep rest
    else
      match splitChars sep rest with
      | t :: ts => (c :: t) :: ts
      | [] => [[c]]

/-- `ParseKeyErrorKind` (parser.rs). -/
inductive ParseKeyErrorKind where
  | EmptyInput
  | InvalidKey (key : List Char)
  | InvalidModifier (modifier : List Char)
  | NoKeySpecified
  deriving DecidableEq, Repr

/-- `ParseKeyError` (parser.rs). -/
structure ParseKeyError where
  input : List Char
  kind : ParseKeyErrorKind
  deriving DecidableEq, Repr

/-- `parse_modifier` (parser.rs, lines 245-253). -/
def parseModifier (s : List Char) : Option KeyModifiers :=
  let t := s.map Char.toLower
  if t = "ctrl".toList ∨ t = "control".toList then some KeyModifiers.CTRL
  else if t = "alt".toList ∨ t = "meta".toList ∨ t = "option".toList then some KeyModifiers.ALT
  else if t = "shift".toList then some KeyModifiers.SHIFT
  else if t = "super".toList ∨ t = "win".toList ∨ t = "cmd".toList ∨ t = "command".toList then
    some KeyModifiers.SUPER
  else none

/-- The named-key table of `parse_key_code` (parser.rs, lines 275-292). -/
def parseNamedKey (s : List Char) : Option KeyCode :=
  let t := s.map Char.toLower
  if t = "enter".toList ∨ t = "return".toList ∨ t = "cr".toList then some KeyCode.enter
  else if t = "escape".toList ∨ t = "esc".toList then some KeyCode.esc
  else if t = "space".toList ∨ t = "spc".toList then some (KeyCode.char ' ')
  else if t = "tab".toList then some KeyCode.tab
  else if t = "backspace".toList ∨ t = "bs".toList then some KeyCode.backspace
  else if t = "delete".toList ∨ t = "del".toList then some KeyCode.delete
  else if t = "insert".toList ∨ t = "ins".toList then some KeyCode.insert
  else if t = "up".toList then some KeyCode.up
  else if t = "down".toList then some KeyCode.down
  else if t = "left".toList then some KeyCode.left
  else if t = "right".toList then some KeyCode.right
  else if t = "home".toList then some KeyCode.home
  else if t = "end".toList then some KeyCode.end'
  else if t = "pageup".toList ∨ t = "pgup".toList then some KeyCode.pageUp
  else if t = "pagedown".toList ∨ t = "pgdn".toList ∨ t = "pgdown".toList then
    some KeyCode.pageDown
  else none

/-- Decimal digits to a number (`str::parse::<u8>`; a parsed value above 255
makes the Rust parse fail, which like a value outside `1..=24` falls through
to the named-key table, so modelling the value as `Nat` is outcome-equal). -/
def natOfDigits (digits : List Char) : Nat :=
  digits.foldl (fun n c => n * 10 + (c.toNat - '0'.toNat)) 0

/-- UTF-8 byte length of a string (`str::len`). -/
def utf8Len (s : List Char) : Nat := (s.map Char.utf8Size).sum

/-- `parse_key_code` (parser.rs, lines 256-293): single byte ⇒ character key;
then `F<n>` for `n` in `1..=24`; then the named-key table. -/
def parseKeyCode (s : List Char) : Option KeyCode :=
  if utf8Len s = 1 then
    some (KeyCode.char (s.headD ' '))
  else
    match s with
    | c :: rest =>
      if (c = 'F' ∨ c = 'f') ∧ rest ≠ [] ∧ rest.all Char.isDigit ∧
          1 ≤ natOfDigits rest ∧ natOfDigits rest ≤ 24 then
        some (KeyCode.f (natOfDigits rest))
      else
        parseNamedKey s
    | [] => parseNamedKey s

/-- The token loop of `parse_key_binding` (parser.rs, lines 156-190) plus the
final `key_code.ok_or(no_key_specified)`: `rest = []` is exactly the source's
`is_last` (`i == parts.len() - 1`); empty trimmed tokens are skipped. -/
def parseParts (input : List Char) :
    List (List Char) → KeyModifiers → Option KeyCode → Except ParseKeyError KeyBinding
  | [], modifiers, keyCode =>
    match keyCode with
    | some key => Except.ok (KeyBinding.withMods key modifiers)
    | none => Except.error ⟨input, ParseKeyErrorKind.NoKeySpecified⟩
  | part :: rest, modifiers, keyCode =>
    let t := trimChars part
    if t = [] then
      parseParts input rest modifiers keyCode
    else
      match parseModifier t with
      | some m => parseParts input rest (modifiers.union m) keyCode
      | none =>
        match parseKeyCode t with
        | some code =>
          if keyCode.isSome then Except.error ⟨input, ParseKeyErrorKind.InvalidModifier t⟩
          else parseParts input rest modifiers (some code)
        | none =>
          if rest.isEmpty then Except.error ⟨input, ParseKeyErrorKind.InvalidKey t⟩
          else Except.error ⟨input, ParseKeyErrorKind.InvalidModifier t⟩

/-- `parse_key_binding` (parser.rs, lines 148-191). -/
def parseKeyBinding (inputStr : String) : Except ParseKeyError KeyBinding :=
  if trimChars inputStr.toList = [] then Except.error ⟨[], ParseKeyErrorKind.EmptyInput⟩
  else
    parseParts (trimChars inputStr.toList)
      (splitChars (fun c => c == '+' || c == '-') (trimChars inputStr.toList))
      KeyModifiers.NONE none

deriving instance DecidableEq for Except

end Tuilib

namespace Tuilib

/-- The non-empty trimmed tokens of a part list. -/
def cleanParts (ps : List (List Char)) : List (List Char) :=
  (ps.map trimChars).filter (fun t => !t.isEmpty)

/-- The non-empty trimmed `+`/`-`-separated tokens of a binding string. -/
def cleanTokens (inputStr : String) : List (List Char) :=
  cleanParts (splitChars (fun c => c == '+' || c == '-') (trimChars inputStr.toList))

theorem cleanParts_cons (p : List Char) (rest : List (List Char)) :
    cleanParts (p :: rest) =
      if trimChars p = [] then cleanParts rest else trimChars p :: cleanParts rest := by
  by_cases h : trimChars p = []
  · simp [cleanParts, h]
  · simp [cleanParts, h, List.filter_cons]

theorem parseParts_some_ok :
    ∀ (ps : List (List Char)) (input : List Char) (mods : KeyModifiers) (k0 : KeyCode)
      (kb : KeyBinding),
      parseParts input ps mods (some k0) = Except.ok kb →
      kb.key = k0 ∧ ∀ t ∈ cleanParts ps, (parseModifier t).isSome := by
  intro ps
  induction ps with
  | nil =>
    intro input mods k0 kb h
    simp only [parseParts, Except.ok.injEq] at h
    subst h
    exact ⟨rfl, by simp [cleanParts]⟩
  | cons p rest ih =>
    intro input mods k0 kb h
    rw [cleanParts_cons]
    simp only [parseParts] at h
    split at h
    · rename_i ht
      rw [if_pos ht]
      exact ih input mods k0 kb h
    · rename_i ht
      rw [if_neg ht]
      split at h
      · rename_i m hm
        obtain ⟨hk, hall⟩ := ih input (mods.union m) k0 kb h
        refine ⟨hk, ?_⟩
        intro t htmem
        rcases List.mem_cons.1 htmem with rfl | htmem
        · simp [hm]
        · exact hall t htmem
      · rename_i hm
        split at h
        · rename_i code hc
          simp at h
        · rename_i hc
          split at h <;> simp_all

theorem parseParts_none_ok :
    ∀ (ps : List (List Char)) (input : List Char) (mods : KeyModifiers) (kb : KeyBinding),
      parseParts input ps mods none = Except.ok kb →
      ∃ pre k post,
        cleanParts ps = pre ++ k :: post ∧
        (∀ t ∈ pre, (parseModifier t).isSome) ∧
        (∀ t ∈ post, (parseModifier t).isSome) ∧
        parseModifier k = none ∧
        parseKeyCode k = some kb.key := by
  intro ps
  induction ps with
  | nil =>
    intro input mods kb h
    simp [parseParts] at h
  | cons p rest ih =>
    intro input mods kb h
    rw [cleanParts_cons]
    simp only [parseParts] at h
    split at h
    · rename_i ht
      rw [if_pos ht]
      exact ih input mods kb h
    · rename_i ht
      rw [if_neg ht]
      split at h
      · rename_i m hm
        obtain ⟨pre, k, post, hsplit, hpre, hpost, hk, hkc⟩ := ih input (mods.union m) kb h
        refine ⟨trimChars p :: pre, k, post, by rw [hsplit]; rfl, ?_, hpost, hk, hkc⟩
        intro t htmem
        rcases List.mem_cons.1 htmem with rfl | htmem
        · simp [hm]
        · exact hpre t htmem
      · rename_i hm
        split at h
        · rename_i code hc
          simp only [Option.isSome_none, Bool.false_eq_true, if_neg, ite_false] at h
          obtain ⟨hkey, hall⟩ := parseParts_some_ok rest input mods code kb h
          exact ⟨[], trimChars p, cleanParts rest, rfl, by simp, hall, hm, by rw [hc, hkey]⟩
        · rename_i hc
          split at h <;> simp_all

theorem parseParts_error :
    ∀ (ps : List (List Char)) (input : List Char) (mods : KeyModifiers)
      (kc : Option KeyCode) (e : ParseKeyError),
      parseParts input ps mods kc = Except.error e →
      e.kind ≠ ParseKeyErrorKind.EmptyInput ∧
      (kc = none → e.kind = ParseKeyErrorKind.NoKeySpecified →
        ∀ t ∈ cleanParts ps, (parseModifier t).isSome) ∧
      (kc.isSome = true → e.kind ≠ ParseKeyErrorKind.NoKeySpecified) ∧
      (∀ t, e.kind = ParseKeyErrorKind.InvalidKey t →
        parseModifier t = none ∧ parseKeyCode t = none) ∧
      (∀ t, e.kind = ParseKeyErrorKind.InvalidModifier t → parseModifier t = none) := by
  intro ps
  induction ps with
  | nil =>
    intro input mods kc e h
    cases kc with
    | some k0 => simp [parseParts] at h
    | none =>
      simp only [parseParts, Except.error.injEq] at h
      subst h
      refine ⟨by simp, ?_, by simp, by simp, by simp⟩
      intro _ _ t htmem
      simp [cleanParts] at htmem
  | cons p rest ih =>
    intro input mods kc e h
    simp only [parseParts] at h
    split at h
    · rename_i ht
      obtain ⟨h1, h2, h3, h4, h5⟩ := ih input mods kc e h
      refine ⟨h1, ?_, h3, h4, h5⟩
      intro hkc hkind t htmem
      rw [cleanParts_cons, if_pos ht] at htmem
      exact h2 hkc hkind t htmem
    · rename_i ht
      split at h
      · rename_i m hm
        obtain ⟨h1, h2, h3, h4, h5⟩ := ih input (mods.union m) kc e h
        refine ⟨h1, ?_, h3, h4, h5⟩
        intro hkc hkind t htmem
        rw [cleanParts_cons, if_neg ht] at htmem
        rcases List.mem_cons.1 htmem with rfl | htmem
        · simp [hm]
        · exact h2 hkc hkind t htmem
      · rename_i hm
        split at h
        · rename_i code hc
          split at h
          · rename_i hkc
            simp only [Except.error.injEq] at h
            subst h
            refine ⟨by simp, ?_, by simp, by simp, ?_⟩
            · intro hnone _
              rw [hnone] at hkc
              simp at hkc
            · intro t hkind
              simp only [ParseKeyErrorKind.InvalidModifier.injEq] at hkind
              subst hkind
              exact hm
          · obtain ⟨h1, h2, h3, h4, h5⟩ := ih input mods (some code) e h
            refine ⟨h1, ?_, ?_, h4, h5⟩
            · intro _ hkind
              exact absurd hkind (h3 (by simp))
            · intro _ hkind
              exact absurd hkind (h3 (by simp))
        · rename_i hc
          split at h <;>
          · simp only [Except.error.injEq] at h
            subst h
            refine ⟨by simp, by simp, by simp, ?_, ?_⟩
            · intro t hkind
              simp only [ParseKeyErrorKind.InvalidKey.injEq] at hkind
              try subst hkind
              first
              | exact ⟨hm, hc⟩
              | simp_all
            · intro t hkind
              simp only [ParseKeyErrorKind.InvalidModifier.injEq] at hkind
              try subst hkind
              first
              | exact hm
              | simp_all

theorem parseParts_some_completes :
    ∀ (ps : List (List Char)) (input : List Char) (mods : KeyModifiers) (k0 : KeyCode),
      (∀ t ∈ cleanParts ps, (parseModifier t).isSome) →
      ∃ kb, parseParts input ps mods (some k0) = Except.ok kb ∧ kb.key = k0 := by
  intro ps
  induction ps with
  | nil =>
    intro input mods k0 _
    exact ⟨KeyBinding.withMods k0 mods, rfl, rfl⟩
  | cons p rest ih =>
    intro input mods k0 hall
    rw [cleanParts_cons] at hall
    by_cases ht : trimChars p = []
    · rw [if_pos ht] at hall
      obtain ⟨kb, hok, hkey⟩ := ih input mods k0 hall
      exact ⟨kb, by simp only [parseParts, ht, ite_true, if_pos]; exact hok, hkey⟩
    · rw [if_neg ht] at hall
      have hmod : (parseModifier (trimChars p)).isSome := hall _ (by simp)
      obtain ⟨m, hm⟩ := Option.isSome_iff_exists.1 hmod
      obtain ⟨kb, hok, hkey⟩ := ih input (mods.union m) k0 (fun t htm => hall t (by simp [htm]))
      refine ⟨kb, ?_, hkey⟩
      simp only [parseParts, ht, ite_false, hm]
      exact hok

theorem parseParts_none_completes :
    ∀ (ps : List (List Char)) (input : List Char) (mods : KeyModifiers)
      (pre : List (List Char)) (k : List Char) (post : List (List Char)),
      cleanParts ps = pre ++ k :: post →
      (∀ t ∈ pre, (parseModifier t).isSome) →
      (∀ t ∈ post, (parseModifier t).isSome) →
      parseModifier k = none →
      (parseKeyCode k).isSome →
      ∃ kb, parseParts input ps mods none = Except.ok kb ∧ parseKeyCode k = some kb.key := by
  intro ps
  induction ps with
  | nil =>
    intro input mods pre k post hsplit _ _ _ _
    simp [cleanParts] at hsplit
  | cons p rest ih =>
    intro input mods pre k post hsplit hpre hpost hk hkc
    rw [cleanParts_cons] at hsplit
    by_cases ht : trimChars p = []
    · rw [if_pos ht] at hsplit
      obtain ⟨kb, hok, hkey⟩ := ih input mods pre k post hsplit hpre hpost hk hkc
      exact ⟨kb, by simp only [parseParts, ht, ite_true, if_pos]; exact hok, hkey⟩
    · rw [if_neg ht] at hsplit
      cases pre with
      | nil =>
        simp only [List.nil_append, List.cons.injEq] at hsplit
        obtain ⟨hkeq, hrest⟩ := hsplit
        subst hkeq
        obtain ⟨code, hcode⟩ := Option.isSome_iff_exists.1 hkc
        obtain ⟨kb, hok, hkey⟩ :=
          parseParts_some_completes rest input mods code (by rw [hrest]; exact hpost)
        refine ⟨kb, ?_, by rw [hcode, hkey]⟩
        simp only [parseParts, ht, ite_false, hk, hcode]
        simpa using hok
      | cons q pre' =>
        simp only [List.cons_append, List.cons.injEq] at hsplit
        obtain ⟨hq, hsplit'⟩ := hsplit
        have hmod : (parseModifier (trimChars p)).isSome := by
          rw [hq]
          exact hpre q (by simp)
        obtain ⟨m, hm⟩ := Option.isSome_iff_exists.1 hmod
        obtain ⟨kb, hok, hkey⟩ := ih input (mods.union m) pre' k post hsplit'
          (fun t htm => hpre t (by simp [htm])) hpost hk hkc
        refine ⟨kb, ?_, hkey⟩
        simp only [parseParts, ht, ite_false, hm]
        exact hok

/-- The raw `+`/`-`-separated parts of a binding string (the `parts` vector of
`parse_key_binding`, before empty-token skipping). A part `is_last` in the
source exactly when it is the last element of this list. -/
def rawParts (inputStr : String) : List (List Char) :=
  splitChars (fun c => c == '+' || c == '-') (trimChars inputStr.toList)

/-- The `modifiers |= m` accumulation of the parser loop over a token list, in
order (a non-modifier token contributes nothing). -/
def modsUnion (ts : List (List Char)) (acc : KeyModifiers) : KeyModifiers :=
  ts.foldl (fun a t => a.union ((parseModifier t).getD KeyModifiers.NONE)) acc

theorem modsUnion_cons (t : List Char) (ts : List (List Char)) (acc : KeyModifiers) :
    modsUnion (t :: ts) acc =
      modsUnion ts (acc.union ((parseModifier t).getD KeyModifiers.NONE)) := rfl

theorem parseKeyBinding_eq_parts (input : String) (h : trimChars input.toList ≠ []) :
    parseKeyBinding input =
      parseParts (trimChars input.toList) (rawParts input) KeyModifiers.NONE none := by
  unfold parseKeyBinding rawParts
  rw [if_neg h]

theorem parseParts_allMods_some :
    ∀ (ps : List (List Char)) (input : List Char) (mods : KeyModifiers) (k0 : KeyCode),
      (∀ t ∈ cleanParts ps, (parseModifier t).isSome) →
      parseParts input ps mods (some k0) =
        Except.ok (KeyBinding.withMods k0 (modsUnion (cleanParts ps) mods)) := by
  intro ps
  induction ps with
  | nil => intro input mods k0 _; rfl
  | cons p rest ih =>
    intro input mods k0 hall
    rw [cleanParts_cons] at hall
    by_cases ht : trimChars p = []
    · rw [if_pos ht] at hall
      rw [cleanParts_cons, if_pos ht]
      simp only [parseParts, ht, ite_true, if_pos]
      exact ih input mods k0 hall
    · rw [if_neg ht] at hall
      have hmod : (parseModifier (trimChars p)).isSome := hall _ (by simp)
      obtain ⟨m, hm⟩ := Option.isSome_iff_exists.1 hmod
      rw [cleanParts_cons, if_neg ht, modsUnion_cons, hm]
      simp only [Option.getD_some]
      simp only [parseParts, ht, ite_false, hm]
      exact ih input (mods.union m) k0 (fun t htm => hall t (by simp [htm]))

theorem parseParts_allMods_none :
    ∀ (ps : List (List Char)) (input : List Char) (mods : KeyModifiers),
      (∀ t ∈ cleanParts ps, (parseModifier t).isSome) →
      parseParts input ps mods none =
        Except.error ⟨input, ParseKeyErrorKind.NoKeySpecified⟩ := by
  intro ps
  induction ps with
  | nil => intro input mods _; rfl
  | cons p rest ih =>
    intro input mods hall
    rw [cleanParts_cons] at hall
    by_cases ht : trimChars p = []
    · rw [if_pos ht] at hall
      simp only [parseParts, ht, ite_true, if_pos]
      exact ih input mods hall
    · rw [if_neg ht] at hall
      have hmod : (parseModifier (trimChars p)).isSome := hall _ (by simp)
      obtain ⟨m, hm⟩ := Option.isSome_iff_exists.1 hmod
      simp only [parseParts, ht, ite_false, hm]
      exact ih input (mods.union m) (fun t htm => hall t (by simp [htm]))

theorem parseParts_firstNonMod :
    ∀ (pre : List (List Char)) (p : List Char) (post : List (List Char)) (input : List Char)
      (mods : KeyModifiers),
      (∀ t ∈ cleanParts pre, (parseModifier t).isSome) →
      trimChars p ≠ [] →
      parseModifier (trimChars p) = none →
      parseParts input (pre ++ p :: post) mods none =
        (match parseKeyCode (trimChars p) with
         | some code => parseParts input post (modsUnion (cleanParts pre) mods) (some code)
         | none =>
           Except.error ⟨input,
             if post = [] then ParseKeyErrorKind.InvalidKey (trimChars p)
             else ParseKeyErrorKind.InvalidModifier (trimChars p)⟩) := by
  intro pre
  induction pre with
  | nil =>
    intro p post input mods _ hp hm
    simp only [List.nil_append, parseParts, hp, ite_false, hm]
    cases hc : parseKeyCode (trimChars p) with
    | some code => simp [modsUnion, cleanParts]
    | none =>
      cases post with
      | nil => simp
      | cons r rs => simp
  | cons a pre' ih =>
    intro p post input mods hall hp hm
    rw [cleanParts_cons] at hall
    by_cases ht : trimChars a = []
    · rw [if_pos ht] at hall
      simp only [List.cons_append, parseParts, ht, ite_true, if_pos]
      rw [List.append_eq, ih p post input mods hall hp hm, cleanParts_cons, if_pos ht]
    · rw [if_neg ht] at hall
      have hmod : (parseModifier (trimChars a)).isSome := hall _ (by simp)
      obtain ⟨m, hm2⟩ := Option.isSome_iff_exists.1 hmod
      simp only [List.cons_append, parseParts, ht, ite_false, hm2]
      rw [List.append_eq, ih p post input (mods.union m) (fun t htm => hall t (by simp [htm]))
        hp hm, cleanParts_cons, if_neg ht, modsUnion_cons, hm2]
      rfl

theorem parseParts_firstNonMod_some (pre : List (List Char)) (p : List Char)
    (post : List (List Char)) (input : List Char) (mods : KeyModifiers) (code : KeyCode)
    (hall : ∀ t ∈ cleanParts pre, (parseModifier t).isSome)
    (hp : trimChars p ≠ []) (hm : parseModifier (trimChars p) = none)
    (hc : parseKeyCode (trimChars p) = some code) :
    parseParts input (pre ++ p :: post) mods none =
      parseParts input post (modsUnion (cleanParts pre) mods) (some code) := by
  rw [parseParts_firstNonMod pre p post input mods hall hp hm, hc]

theorem parseParts_firstNonMod_none (pre : List (List Char)) (p : List Char)
    (post : List (List Char)) (input : List Char) (mods : KeyModifiers)
    (hall : ∀ t ∈ cleanParts pre, (parseModifier t).isSome)
    (hp : trimChars p ≠ []) (hm : parseModifier (trimChars p) = none)
    (hc : parseKeyCode (trimChars p) = none) :
    parseParts input (pre ++ p :: post) mods none =
      Except.error ⟨input,
        if post = [] then ParseKeyErrorKind.InvalidKey (trimChars p)
        else ParseKeyErrorKind.InvalidModifier (trimChars p)⟩ := by
  rw [parseParts_firstNonMod pre p post input mods hall hp hm, hc]

theorem parseParts_secondNonMod :
    ∀ (mid : List (List Char)) (q : List Char) (post : List (List Char)) (input : List Char)
      (mods : KeyModifiers) (k0 : KeyCode),
      (∀ t ∈ cleanParts mid, (parseModifier t).isSome) →
      trimChars q ≠ [] →
      parseModifier (trimChars q) = none →
      parseParts input (mid ++ q :: post) mods (some k0) =
        Except.error ⟨input,
          if (parseKeyCode (trimChars q)).isSome then
            ParseKeyErrorKind.InvalidModifier (trimChars q)
          else if post = [] then ParseKeyErrorKind.InvalidKey (trimChars q)
          else ParseKeyErrorKind.InvalidModifier (trimChars q)⟩ := by
  intro mid
  induction mid with
  | nil =>
    intro q post input mods k0 _ hq hm
    simp only [List.nil_append, parseParts, hq, ite_false, hm]
    cases hc : parseKeyCode (trimChars q) with
    | some code => simp
    | none =>
      cases post with
      | nil => simp
      | cons r rs => simp
  | cons a mid' ih =>
    intro q post input mods k0 hall hq hm
    rw [cleanParts_cons] at hall
    by_cases ht : trimChars a = []
    · rw [if_pos ht] at hall
      simp only [List.cons_append, parseParts, ht, ite_true, if_pos]
      exact ih q post input mods k0 hall hq hm
    · rw [if_neg ht] at hall
      have hmod : (parseModifier (trimChars a)).isSome := hall _ (by simp)
      obtain ⟨m, hm2⟩ := Option.isSome_iff_exists.1 hmod
      simp only [List.cons_append, parseParts, ht, ite_false, hm2]
      exact ih q post input (mods.union m) k0 (fun t htm => hall t (by simp [htm])) hq hm

theorem cleanParts_decomp :
    ∀ (ps : List (List Char)) (xs : List (List Char)) (k : List Char) (ys : List (List Char)),
      cleanParts ps = xs ++ k :: ys →
      ∃ as p bs, ps = as ++ p :: bs ∧ trimChars p = k ∧
        cleanParts as = xs ∧ cleanParts bs = ys := by
  intro ps
  induction ps with
  | nil =>
    intro xs k ys h
    simp [cleanParts] at h
  | cons p rest ih =>
    intro xs k ys h
    rw [cleanParts_cons] at h
    by_cases ht : trimChars p = []
    · rw [if_pos ht] at h
      obtain ⟨as, p', bs, hps, htp, hca, hcb⟩ := ih xs k ys h
      exact ⟨p :: as, p', bs, by rw [hps]; rfl, htp,
        by rw [cleanParts_cons, if_pos ht]; exact hca, hcb⟩
    · rw [if_neg ht] at h
      cases xs with
      | nil =>
        simp only [List.nil_append, List.cons.injEq] at h
        exact ⟨[], p, rest, rfl, h.1, rfl, h.2⟩
      | cons x xs' =>
        simp only [List.cons_append, List.cons.injEq] at h
        obtain ⟨hx, h'⟩ := h
        obtain ⟨as, p', bs, hps, htp, hca, hcb⟩ := ih xs' k ys h'
        exact ⟨p :: as, p', bs, by rw [hps]; rfl, htp,
          by rw [cleanParts_cons, if_neg ht, hx, hca], hcb⟩

theorem rawParts_member_nonempty (input : String) (rpre : List (List Char)) (p : List Char)
    (rpost : List (List Char)) (hraw : rawParts input = rpre ++ p :: rpost)
    (hp : trimChars p ≠ []) :
    trimChars input.toList ≠ [] := by
  intro h0
  have hsingle : rpre ++ p :: rpost = [[]] := by
    rw [← hraw]
    unfold rawParts
    rw [h0]
    rfl
  cases rpre with
  | nil =>
    simp only [List.nil_append, List.cons.injEq] at hsingle
    obtain ⟨rfl, -⟩ := hsingle
    exact hp rfl
  | cons a as => simp at hsingle

theorem parse_classification_counterexample :
    parseKeyBinding "a+Shift" =
      Except.ok (KeyBinding.withMods (KeyCode.char 'a') KeyModifiers.SHIFT) ∧
    cleanTokens "a+Shift" = ["a".toList, "Shift".toList] ∧
    parseModifier "a".toList = none ∧
    parseKeyCode "Shift".toList = none := by decide

/-- Claim C10, amended (binding-string classification): `parse_key_binding`
tries `parse_modifier` on every `+`/`-`-separated token FIRST, including the
last. Forward mapping, covering every input: (1) a successful parse has
exactly one non-modifier token among the non-empty trimmed tokens, that token
names the key; (2) conversely, modifiers around one key-naming non-modifier
token — in any position, including after the key — parse to that key with the
union of the named modifier sets, accumulated in token order; (3) a blank
input fails with `EmptyInput`; (4) a non-blank input whose tokens are all
modifiers fails with `NoKeySpecified`; (5) if the first non-modifier token
names no key either, the parse fails with `InvalidKey` on it when it is the
last raw part and `InvalidModifier` otherwise; (6) once a key is set, a
second non-modifier token fails with `InvalidModifier` when it would name a
key, else `InvalidKey`/`InvalidModifier` by the same last/non-last rule;
(7) every reported error kind correctly describes the blamed token. -/
theorem parse_classification :
    (∀ (input : String) (kb : KeyBinding),
      parseKeyBinding input = Except.ok kb →
      ∃ pre k post,
        cleanTokens input = pre ++ k :: post ∧
        (∀ t ∈ pre, (parseModifier t).isSome) ∧
        (∀ t ∈ post, (parseModifier t).isSome) ∧
        parseModifier k = none ∧
        parseKeyCode k = some kb.key) ∧
    (∀ (input : String) (pre : List (List Char)) (k : List Char) (post : List (List Char))
        (code : KeyCode),
      cleanTokens input = pre ++ k :: post →
      (∀ t ∈ pre, (parseModifier t).isSome) →
      (∀ t ∈ post, (parseModifier t).isSome) →
      parseModifier k = none →
      parseKeyCode k = some code →
      parseKeyBinding input =
        Except.ok (KeyBinding.withMods code
          (modsUnion post (modsUnion pre KeyModifiers.NONE)))) ∧
    (∀ (input : String), trimChars input.toList = [] →
      parseKeyBinding input = Except.error ⟨[], ParseKeyErrorKind.EmptyInput⟩) ∧
    (∀ (input : String), trimChars input.toList ≠ [] →
      (∀ t ∈ cleanTokens input, (parseModifier t).isSome) →
      parseKeyBinding input =
        Except.error ⟨trimChars input.toList, ParseKeyErrorKind.NoKeySpecified⟩) ∧
    (∀ (input : String) (rpre : List (List Char)) (p : List Char) (rpost : List (List Char)),
      rawParts input = rpre ++ p :: rpost →
      (∀ t ∈ cleanParts rpre, (parseModifier t).isSome) →
      trimChars p ≠ [] →
      parseModifier (trimChars p) = none →
      parseKeyCode (trimChars p) = none →
      parseKeyBinding input =
        Except.error ⟨trimChars input.toList,
          if rpost = [] then ParseKeyErrorKind.InvalidKey (trimChars p)
          else ParseKeyErrorKind.InvalidModifier (trimChars p)⟩) ∧
    (∀ (input : String) (rpre : List (List Char)) (p : List Char) (mid : List (List Char))
        (q : List Char) (rpost : List (List Char)),
      rawParts input = rpre ++ p :: (mid ++ q :: rpost) →
      (∀ t ∈ cleanParts rpre, (parseModifier t).isSome) →
      trimChars p ≠ [] →
      parseModifier (trimChars p) = none →
      (parseKeyCode (trimChars p)).isSome →
      (∀ t ∈ cleanParts mid, (parseModifier t).isSome) →
      trimChars q ≠ [] →
      parseModifier (trimChars q) = none →
      parseKeyBinding input =
        Except.error ⟨trimChars input.toList,
          if (parseKeyCode (trimChars q)).isSome then
            ParseKeyErrorKind.InvalidModifier (trimChars q)
          else if rpost = [] then ParseKeyErrorKind.InvalidKey (trimChars q)
          else ParseKeyErrorKind.InvalidModifier (trimChars q)⟩) ∧
    (∀ (input : String) (e : ParseKeyError),
      parseKeyBinding input = Except.error e →
      (e.kind = ParseKeyErrorKind.EmptyInput ↔ trimChars input.toList = []) ∧
      (e.kind = ParseKeyErrorKind.NoKeySpecified →
        ∀ t ∈ cleanTokens input, (parseModifier t).isSome) ∧
      (∀ t, e.kind = ParseKeyErrorKind.InvalidKey t →
        parseModifier t = none ∧ parseKeyCode t = none) ∧
      (∀ t, e.kind = ParseKeyErrorKind.InvalidModifier t → parseModifier t = none)) := by
  refine ⟨?_, ?_, ?_, ?_, ?_, ?_, ?_⟩
  · intro input kb h
    unfold parseKeyBinding at h
    by_cases htrim : trimChars input.toList = []
    · rw [if_pos htrim] at h
      simp at h
    · rw [if_neg htrim] at h
      exact parseParts_none_ok _ _ _ _ h
  · intro input pre k post code hsplit hpre hpost hk hkc
    have hkne : k ≠ [] := by
      intro hknil
      rw [hknil, show parseKeyCode ([] : List Char) = none from by decide] at hkc
      exact Option.noConfusion hkc
    have hne : trimChars input.toList ≠ [] := by
      intro h0
      have hempty : cleanTokens input = [] := by
        unfold cleanTokens
        rw [h0]
        decide
      rw [hempty] at hsplit
      exact absurd hsplit (by simp)
    obtain ⟨as, p, bs, hps, htp, hca, hcb⟩ :=
      cleanParts_decomp (rawParts input) pre k post hsplit
    rw [parseKeyBinding_eq_parts input hne, hps]
    rw [parseParts_firstNonMod_some as p bs (trimChars input.toList) KeyModifiers.NONE code
      (by rw [hca]; exact hpre) (by rw [htp]; exact hkne) (by rw [htp]; exact hk)
      (by rw [htp]; exact hkc)]
    rw [parseParts_allMods_some bs (trimChars input.toList)
      (modsUnion (cleanParts as) KeyModifiers.NONE) code (by rw [hcb]; exact hpost)]
    rw [hca, hcb]
  · intro input h0
    unfold parseKeyBinding
    rw [if_pos h0]
  · intro input hne hall
    rw [parseKeyBinding_eq_parts input hne]
    exact parseParts_allMods_none (rawParts input) (trimChars input.toList)
      KeyModifiers.NONE hall
  · intro input rpre p rpost hraw hpremods hp hpm hpk
    have hne := rawParts_member_nonempty input rpre p rpost hraw hp
    rw [parseKeyBinding_eq_parts input hne, hraw]
    exact parseParts_firstNonMod_none rpre p rpost (trimChars input.toList)
      KeyModifiers.NONE hpremods hp hpm hpk
  · intro input rpre p mid q rpost hraw hpremods hp hpm hpk hmidmods hq hqm
    have hne := rawParts_member_nonempty input rpre p (mid ++ q :: rpost) hraw hp
    obtain ⟨code, hcode⟩ := Option.isSome_iff_exists.1 hpk
    rw [parseKeyBinding_eq_parts input hne, hraw]
    rw [parseParts_firstNonMod_some rpre p (mid ++ q :: rpost) (trimChars input.toList)
      KeyModifiers.NONE code hpremods hp hpm hcode]
    exact parseParts_secondNonMod mid q rpost (trimChars input.toList)
      (modsUnion (cleanParts rpre) KeyModifiers.NONE) code hmidmods hq hqm
  · intro input e h
    unfold parseKeyBinding at h
    by_cases htrim : trimChars input.toList = []
    · rw [if_pos htrim] at h
      simp only [Except.error.injEq] at h
      subst h
      exact ⟨⟨fun _ => htrim, fun _ => rfl⟩, by simp, by simp, by simp⟩
    · rw [if_neg htrim] at h
      obtain ⟨h1, h2, h3, h4, h5⟩ := parseParts_error _ _ _ _ _ h
      exact ⟨⟨fun hk => absurd hk h1, fun hc => absurd hc htrim⟩, h2 rfl, h4, h5⟩

theorem parse_classification_witness :
    parseKeyBinding "ctrl+shift+x" =
      Except.ok (KeyBinding.withMods (KeyCode.char 'x')
        { ctrl := true, alt := false, shift := true, sup := false }) ∧
    parseKeyBinding "Ctrl+" =
      Except.error ⟨"Ctrl+".toList, ParseKeyErrorKind.NoKeySpecified⟩ ∧
    parseKeyBinding "zz+a" =
      Except.error ⟨"zz+a".toList, ParseKeyErrorKind.InvalidModifier "zz".toList⟩ ∧
    parseKeyBinding "a+zz" =
      Except.error ⟨"a+zz".toList, ParseKeyErrorKind.InvalidKey "zz".toList⟩ ∧
    parseKeyBinding "q+q" =
      Except.error ⟨"q+q".toList, ParseKeyErrorKind.InvalidModifier "q".toList⟩ := by
  refine ⟨?_, ?_, ?_, ?_, ?_⟩
  · have h := parse_classification.2.1 "ctrl+shift+x" ["ctrl".toList, "shift".toList]
      "x".toList [] (KeyCode.char 'x') (by decide) (by decide) (by decide) (by decide)
      (by decide)
    rw [h]
    decide
  · have h := parse_classification.2.2.2.1 "Ctrl+" (by decide) (by decide)
    rw [h]
    decide
  · have h := parse_classification.2.2.2.2.1 "zz+a" [] "zz".toList ["a".toList]
      (by decide) (by decide) (by decide) (by decide) (by decide)
    rw [h]
    decide
  · have h := parse_classification.2.2.2.2.2.1 "a+zz" [] "a".toList [] "zz".toList []
      (by decide) (by decide) (by decide) (by decide) (by decide) (by decide) (by decide)
      (by decide)
    rw [h]
    decide
  · have h := parse_classification.2.2.2.2.2.1 "q+q" [] "q".toList [] "q".toList []
      (by decide) (by decide) (by decide) (by decide) (by decide) (by decide) (by decide)
      (by decide)
    rw [h]
    decide

end Tuilib
